import Mathlib

/-!
Shallow embedding of the Housie/Tambola ticket-layout generator of
`app.py` (`api_tickets`, `generate_ticket_strict`, `_fallback_generate_ticket`).

Python's process-wide pseudo-random source is modelled as an explicit
stream of natural numbers together with a read position (`Rng`); every
random primitive of the source (`random.shuffle`, `random.choice`,
`random.sample`, `random.randrange`, and the random sort tie-breaks)
draws successive values from that stream.  All theorems quantify over
every possible stream, so they cover every sequence of random choices
the Python program can see.

Tickets are `List (List Nat)` (3 rows of 9 entries, `0` = blank),
exactly the JSON value the handler serializes.  `list.pop()` on an
empty pool and a non-terminating loop are modelled by `Option`
results (`none`), so "the code never raises / always answers" becomes
"the embedded function always returns `some`".
-/

namespace Housie

/-- Explicit model of the pseudo-random source: an infinite stream of
naturals and the position of the next unread value. -/
structure Rng where
  stream : Nat → Nat
  pos : Nat

/-- Draw one value reduced modulo `b` (models `randrange(b)`, an index
choice among `b` alternatives, etc.) and advance the stream. -/
def Rng.next (g : Rng) (b : Nat) : Nat × Rng :=
  (g.stream g.pos % b, ⟨g.stream, g.pos + 1⟩)

/-- One selection step of the shuffle: pick a random position, move that
element to the front of the result, recurse on the rest.  `fuel` is the
length of the list, so the recursion always completes the permutation. -/
def shuffleGo : Nat → List Nat → Rng → List Nat × Rng
  | 0, _, g => ([], g)
  | fuel + 1, l, g =>
    if l = [] then ([], g)
    else
      let k := (g.next l.length).1
      let g1 := (g.next l.length).2
      let res := shuffleGo fuel (l.eraseIdx k) g1
      (l.getD k 0 :: res.1, res.2)

/-- Model of `random.shuffle(l)`: an `Rng`-driven selection of a
permutation of `l` (every permutation is reachable for a suitable
stream, and the result is a permutation for every stream). -/
def shuffle (l : List Nat) (g : Rng) : List Nat × Rng :=
  shuffleGo l.length l g

/-- The nine fixed column ranges of `generate_ticket_strict`:
`[1..9], [10..19], ..., [70..79], [80..90]`. -/
def colRanges : List (List Nat) :=
  [List.range' 1 9, List.range' 10 10, List.range' 20 10, List.range' 30 10,
   List.range' 40 10, List.range' 50 10, List.range' 60 10, List.range' 70 10,
   List.range' 80 11]

/-- Smallest value allowed in column `c` (column 0: 1, column k: 10k). -/
def colLo (c : Nat) : Nat := if c = 0 then 1 else 10 * c

/-- Largest value allowed in column `c` (column 8: 90, column k: 10k+9). -/
def colHi (c : Nat) : Nat := if c = 8 then 90 else 10 * c + 9

/-- Shuffle each column range in order (the `for c in cols: random.shuffle(c)`
loop), threading the random stream. -/
def shuffleEach : List (List Nat) → Rng → List (List Nat) × Rng
  | [], g => ([], g)
  | l :: ls, g =>
    let p := shuffle l g
    let rest := shuffleEach ls p.2
    (p.1 :: rest.1, rest.2)

/-- Working state of the layout planner: `rows` is the 3×9 occupancy
matrix (entries 0/1, mirroring `rows` in the Python code) and `used`
the per-row tally `row_used`. -/
structure PS where
  rows : List (List Nat)
  used : List Nat

/-- The all-empty planner state (`rows = [[0]*9]*3`, `row_used = [0,0,0]`). -/
def initPS : PS :=
  ⟨List.replicate 3 (List.replicate 9 0), [0, 0, 0]⟩

/-- Occupancy entry `rows[r][c]`. -/
def cell (s : PS) (r c : Nat) : Nat := (s.rows.getD r []).getD c 0

/-- Row tally `row_used[r]`. -/
def uval (s : PS) (r : Nat) : Nat := s.used.getD r 0

/-- Column occupancy `sum(rows[rr][ci] for rr in range(3))`. -/
def colsum (s : PS) (c : Nat) : Nat := cell s 0 c + cell s 1 c + cell s 2 c

/-- The paired mutation `rows[r][ci] = 1; row_used[r] += 1` (every
occupancy write in the Python code comes with this tally increment). -/
def mark (s : PS) (r c : Nat) : PS :=
  ⟨s.rows.set r ((s.rows.getD r []).set c 1), s.used.set r (uval s r + 1)⟩

/-- Model of `sorted(range(3), key=lambda r: (row_used[r], random.random()))`:
a random permutation of `[0,1,2]` stably sorted by the tally, which is
exactly an arbitrary tally-ascending order with random tie-breaks. -/
def rowOrder (used : List Nat) (g : Rng) : List Nat × Rng :=
  let p := shuffle [0, 1, 2] g
  (p.1.insertionSort (fun a b => used.getD a 0 ≤ used.getD b 0), p.2)

/-- One step of the balanced count assignment: block `b` receives `+2`
on one random column if it is one of the two `(3,1,1)` blocks, else
`+1` on two distinct random columns (the `random.sample` of size 2). -/
def countStep (tb : List Nat) (acc : List Nat × Rng) (b : Nat) : List Nat × Rng :=
  let cands := [3 * b, 3 * b + 1, 3 * b + 2]
  if b ∈ tb then
    let k := (acc.2.next 3).1
    let g1 := (acc.2.next 3).2
    let j := cands.getD k 0
    (acc.1.set j (acc.1.getD j 0 + 2), g1)
  else
    let k1 := (acc.2.next 3).1
    let g1 := (acc.2.next 3).2
    let j1 := cands.getD k1 0
    let rest := cands.eraseIdx k1
    let k2 := (g1.next 2).1
    let g2 := (g1.next 2).2
    let j2 := rest.getD k2 0
    let c1 := acc.1.set j1 (acc.1.getD j1 0 + 1)
    (c1.set j2 (c1.getD j2 0 + 1), g2)

/-- The balanced per-column count assignment of `generate_ticket_strict`:
start at `[1]*9`, shuffle the three blocks, give the first two shuffled
blocks a `(3,1,1)` pattern and the remaining one a `(2,2,1)` pattern. -/
def strictCounts (g : Rng) : List Nat × Rng :=
  let bl := shuffle [0, 1, 2] g
  (List.range 3).foldl (countStep (bl.1.take 2)) (List.replicate 9 1, bl.2)

/-- The `need == 2` placement: walk the tally-sorted rows, mark a row if
its cell is free and its tally is below 5, and stop as soon as the
column holds two marks. -/
def placeTwo (ci : Nat) : List Nat → PS → PS
  | [], s => s
  | r :: rs, s =>
    if cell s r ci = 0 ∧ uval s r < 5 then
      if colsum (mark s r ci) ci = 2 then mark s r ci else placeTwo ci rs (mark s r ci)
    else placeTwo ci rs s

/-- The `need == 1` placement: mark the first tally-sorted row whose
cell is free and whose tally is below 5; report whether a mark landed. -/
def placeOne (ci : Nat) : List Nat → PS → PS × Bool
  | [], s => (s, false)
  | r :: rs, s =>
    if cell s r ci = 0 ∧ uval s r < 5 then (mark s r ci, true)
    else placeOne ci rs s

/-- Place one column of the strict attempt (the body of `for ci in order`):
`need == 3` marks all rows unconditionally, `need == 2` and the `else`
branch place through the tally-sorted row order and report success. -/
def placeColumn (counts : List Nat) (s : PS) (g : Rng) (ci : Nat) : PS × Bool × Rng :=
  let need := counts.getD ci 0
  if need = 3 then (mark (mark (mark s 0 ci) 1 ci) 2 ci, true, g)
  else if need = 2 then
    let o := rowOrder s.used g
    let s1 := placeTwo ci o.1 s
    (s1, decide (colsum s1 ci = 2), o.2)
  else
    let o := rowOrder s.used g
    let p := placeOne ci o.1 s
    (p.1, p.2, o.2)

/-- Fold of `placeColumn` over the processing order, stopping (with
`ok = False`) at the first column that fails, as the Python `break` does. -/
def placeColumns (counts : List Nat) : List Nat → PS → Rng → PS × Bool × Rng
  | [], s, g => (s, true, g)
  | ci :: rest, s, g =>
    let p := placeColumn counts s g ci
    if p.2.1 then placeColumns counts rest p.1 p.2.2 else (p.1, false, p.2.2)

/-- The strict top-up loop for one row (`while row_used[r] < 5`): pick a
random column that is free in this row and still below its assigned
count; fail (`ok = False`) if no candidate exists.  The loop body
increments `row_used[r]`, so 5 rounds of fuel always cover the loop. -/
def topUpRow (counts : List Nat) (r : Nat) : Nat → PS → Rng → PS × Bool × Rng
  | 0, s, g => (s, true, g)
  | fuel + 1, s, g =>
    if uval s r < 5 then
      let cands := (List.range 9).filter fun ci =>
        decide (cell s r ci = 0) && decide (colsum s ci < counts.getD ci 0)
      if cands = [] then (s, false, g)
      else
        let k := (g.next cands.length).1
        let g1 := (g.next cands.length).2
        topUpRow counts r fuel (mark s r (cands.getD k 0)) g1
    else (s, true, g)

/-- The strict top-up over the three rows, stopping at the first failure. -/
def topUpAll (counts : List Nat) : List Nat → PS → Rng → PS × Bool × Rng
  | [], s, g => (s, true, g)
  | r :: rs, s, g =>
    let p := topUpRow counts r 5 s g
    if p.2.1 then topUpAll counts rs p.1 p.2.2 else (p.1, false, p.2.2)

/-- The acceptance test of an attempt:
`row_used == [5,5,5] and all(column sums match counts)`. -/
def validLayout (counts : List Nat) (s : PS) : Prop :=
  s.used = [5, 5, 5] ∧ ∀ ci < 9, colsum s ci = counts.getD ci 0

instance (counts : List Nat) (s : PS) : Decidable (validLayout counts s) := by
  unfold validLayout; infer_instance

/-- One full attempt of the strict generator: place every column in the
order `sorted(range(9), key=lambda i: (-counts[i], i))`, then top up the
rows; the boolean is the attempt's `ok` flag.  The processing order is
`sorted(range(9), key=lambda i: (-counts[i], i))`, i.e. ascending in the
lexicographic key (descending count, then index). -/
def strictOrder (counts : List Nat) : List Nat :=
  (List.range 9).insertionSort fun i j =>
    counts.getD j 0 < counts.getD i 0 ∨ (counts.getD i 0 = counts.getD j 0 ∧ i ≤ j)

/-- One full attempt of the strict generator (see `strictOrder`). -/
def attemptOnce (counts : List Nat) (g : Rng) : PS × Bool × Rng :=
  let p := placeColumns counts (strictOrder counts) initPS g
  if p.2.1 then topUpAll counts [0, 1, 2] p.1 p.2.2 else (p.1, false, p.2.2)

/-- The `for _attempt in range(40)` retry loop: return the first state
that passes the acceptance test, `none` if every attempt fails. -/
def attemptLoop (counts : List Nat) : Nat → Rng → Option PS × Rng
  | 0, g => (none, g)
  | n + 1, g =>
    let p := attemptOnce counts g
    if p.2.1 = true ∧ validLayout counts p.1 then (some p.1, p.2.2)
    else attemptLoop counts n p.2.2

/-- A generated ticket: 3 rows of 9 numbers, `0` marking a blank cell. -/
abbrev Ticket := List (List Nat)

/-- Entry `t[r][c]` of a ticket. -/
def tcell (t : Ticket) (r c : Nat) : Nat := (t.getD r []).getD c 0

/-- Write `t[r][c] = v`. -/
def tset (t : Ticket) (r c v : Nat) : Ticket :=
  t.set r ((t.getD r []).set c v)

/-- Model of `k` successive `list.pop()` draws from the back of a pool;
`none` exactly when some pop hits an empty list (Python would raise). -/
def popK : Nat → List Nat → Option (List Nat × List Nat)
  | 0, l => some ([], l)
  | k + 1, l =>
    match l.getLast? with
    | none => none
    | some x =>
      match popK k l.dropLast with
      | none => none
      | some p => some (x :: p.1, p.2)

/-- Write the drawn, ascending-sorted numbers of column `ci` into the
occupied rows in top-to-bottom order (`for idx, r in enumerate(r_idxs)`). -/
def fillColumn (s : PS) (t : Ticket) (ci : Nat) (nums : List Nat) : Ticket :=
  let ridx := ((List.range 3).filter fun r => decide (cell s r ci = 1)).insertionSort
    (fun a b => a ≤ b)
  (ridx.zip nums).foldl (fun t2 p => tset t2 p.1 ci p.2) t

/-- The grid-filling loop over the nine columns: draw `kof ci` numbers
from pool `ci`, sort them ascending, and assign them to the occupied
rows; `none` if any pool runs out. -/
def fillGo (kof : Nat → Nat) (s : PS) : List Nat → Ticket → List (List Nat) → Option Ticket
  | [], t, _ => some t
  | ci :: rest, t, cols =>
    match popK (kof ci) (cols.getD ci []) with
    | none => none
    | some p =>
      let nums := p.1.insertionSort (fun a b => a ≤ b)
      fillGo kof s rest (fillColumn s t ci nums) (cols.set ci p.2)

/-- Fill a full ticket from the occupancy state and the column pools. -/
def fillTicket (kof : Nat → Nat) (s : PS) (cols : List (List Nat)) : Option Ticket :=
  fillGo kof s (List.range 9) (List.replicate 3 (List.replicate 9 0)) cols

/-- The `while extras > 0` count-distribution loop of
`_fallback_generate_ticket`: pick a uniform column, increment it if it
is still below 3.  The loop is not structurally bounded (an unlucky
stream can pick saturated columns forever), so it carries fuel and
returns `none` when the fuel is exhausted before `extras` reaches 0. -/
def fallbackCountsGo : Nat → List Nat → Nat → Rng → Option (List Nat × Rng)
  | 0, _, _, _ => none
  | fuel + 1, counts, extras, g =>
    if extras = 0 then some (counts, g)
    else
      let i := (g.next 9).1
      let g1 := (g.next 9).2
      if counts.getD i 0 < 3 then
        fallbackCountsGo fuel (counts.set i (counts.getD i 0 + 1)) (extras - 1) g1
      else fallbackCountsGo fuel counts extras g1

/-- Fallback pass over the columns of count 3: mark all three rows. -/
def fbThrees (counts : List Nat) (s : PS) : PS :=
  (List.range 9).foldl
    (fun s2 ci => if counts.getD ci 0 = 3 then mark (mark (mark s2 0 ci) 1 ci) 2 ci else s2) s

/-- Fallback `cnt == 2` placement: like the strict one but guarded only
by `row_used[r] < 5` (the column is untouched, so no cell test is made). -/
def fbPlace2 (ci : Nat) : List Nat → PS → PS
  | [], s => s
  | r :: rs, s =>
    if uval s r < 5 then
      if colsum (mark s r ci) ci = 2 then mark s r ci else fbPlace2 ci rs (mark s r ci)
    else fbPlace2 ci rs s

/-- Fallback pass over the columns of count 2. -/
def fbTwos (counts : List Nat) : List Nat → PS → Rng → PS × Rng
  | [], s, g => (s, g)
  | ci :: rest, s, g =>
    if counts.getD ci 0 = 2 then
      let o := rowOrder s.used g
      fbTwos counts rest (fbPlace2 ci o.1 s) o.2
    else fbTwos counts rest s g

/-- Fallback `cnt == 1` placement: mark the first tally-sorted row with
tally below 5 (silently placing nothing if every row is full). -/
def fbPlace1 (ci : Nat) : List Nat → PS → PS
  | [], s => s
  | r :: rs, s => if uval s r < 5 then mark s r ci else fbPlace1 ci rs s

/-- Fallback pass over the columns of count 1. -/
def fbOnes (counts : List Nat) : List Nat → PS → Rng → PS × Rng
  | [], s, g => (s, g)
  | ci :: rest, s, g =>
    if counts.getD ci 0 = 1 then
      let o := rowOrder s.used g
      fbOnes counts rest (fbPlace1 ci o.1 s) o.2
    else fbOnes counts rest s g

/-- The candidate columns of the fallback top-up: row `r`'s cell is
free and the column has fewer than 3 marks. -/
def topUpCands (r : Nat) (s : PS) : List Nat :=
  (List.range 9).filter fun ci =>
    decide (cell s r ci = 0) && decide (colsum s ci < 3)

/-- The fallback top-up loop for one row (`while row_used[r] < 5`): a
random free cell in a column with fewer than 3 marks; the loop breaks
silently when no candidate exists.  As in the strict loop, each round
increments `row_used[r]`, so fuel 5 covers every run. -/
def fbTopUpRow (r : Nat) : Nat → PS → Rng → PS × Rng
  | 0, s, g => (s, g)
  | fuel + 1, s, g =>
    if uval s r < 5 then
      let cands := topUpCands r s
      if cands = [] then (s, g)
      else
        let k := (g.next cands.length).1
        let g1 := (g.next cands.length).2
        fbTopUpRow r fuel (mark s r (cands.getD k 0)) g1
    else (s, g)

/-- The fallback top-up over the three rows. -/
def fbTopUps : List Nat → PS → Rng → PS × Rng
  | [], s, g => (s, g)
  | r :: rs, s, g =>
    let p := fbTopUpRow r 5 s g
    fbTopUps rs p.1 p.2

/-- The placement part of `_fallback_generate_ticket`, once the count
distribution has been drawn: the three greedy passes, the top-up, and
the fill (with `need` recomputed as the actual column occupancy). -/
def fallbackBody (cols : List (List Nat)) (cg : List Nat × Rng) : Option Ticket × Rng :=
  let s1 := fbThrees cg.1 initPS
  let p2 := fbTwos cg.1 (List.range 9) s1 cg.2
  let p3 := fbOnes cg.1 (List.range 9) p2.1 p2.2
  let p4 := fbTopUps [0, 1, 2] p3.1 p3.2
  (fillTicket (fun ci => colsum p4.1 ci) p4.1 cols, p4.2)

/-- Embedding of `_fallback_generate_ticket(cols)`: random count
distribution (fuelled), then the placement passes of `fallbackBody`. -/
def fallback_generate_ticket (cols : List (List Nat)) (g : Rng) (fuel : Nat) :
    Option Ticket × Rng :=
  match fallbackCountsGo fuel (List.replicate 9 1) 6 g with
  | none => (none, g)
  | some cg => fallbackBody cols cg

/-- Dispatch on the outcome of the 40-attempt loop: fill the accepted
layout, or fall through to `_fallback_generate_ticket`. -/
def afterAttempt (counts : List Nat) (cols : List (List Nat)) (fuel : Nat) :
    Option PS × Rng → Option Ticket × Rng
  | (some s, g3) => (fillTicket (fun ci => counts.getD ci 0) s cols, g3)
  | (none, g3) => fallback_generate_ticket cols g3 fuel

/-- Embedding of `generate_ticket_strict()`: fresh shuffled pools,
balanced counts, at most 40 placement attempts, then either the fill of
the accepted layout or the fallback.  `fuel` bounds only the fallback's
count-distribution loop. -/
def generate_ticket_strict (g : Rng) (fuel : Nat) : Option Ticket × Rng :=
  afterAttempt (strictCounts (shuffleEach colRanges g).2).1 (shuffleEach colRanges g).1 fuel
    (attemptLoop (strictCounts (shuffleEach colRanges g).2).1 40
      (strictCounts (shuffleEach colRanges g).2).2)

/-- Append one generated ticket in front of the remaining generation
(propagating a failure of either part). -/
def genStep (next : Rng → Option (List Ticket) × Rng) :
    Option Ticket × Rng → Option (List Ticket) × Rng
  | (none, g1) => (none, g1)
  | (some t, g1) =>
    match next g1 with
    | (none, g2) => (none, g2)
    | (some ts, g2) => (some (t :: ts), g2)

/-- Generate `k` tickets in sequence, threading the random stream
(the body of the two nested loops of `api_tickets`). -/
def genMany : Nat → Rng → Nat → Option (List Ticket) × Rng
  | 0, g, _ => (some [], g)
  | k + 1, g, fuel => genStep (fun g1 => genMany k g1 fuel) (generate_ticket_strict g fuel)

/-- Embedding of the `/api/tickets` handler body: clamp the parsed
`cards` parameter to `[1, 60]` and produce `count * 6` tickets. -/
def api_tickets (count : Int) (g : Rng) (fuel : Nat) : Option (List Ticket) × Rng :=
  let n := (max 1 (min count 60)).toNat
  genMany (n * 6) g fuel

/-- Number of non-zero entries of row `r` of a ticket. -/
def rowNZ (t : Ticket) (r : Nat) : Nat :=
  (t.getD r []).countP fun v => decide (v ≠ 0)

/-- Number of non-zero entries of column `c` of a ticket. -/
def colNZ (t : Ticket) (c : Nat) : Nat :=
  (List.range 3).countP fun r => decide (tcell t r c ≠ 0)

/-- Total number of non-zero entries of a ticket. -/
def totalNZ (t : Ticket) : Nat :=
  ((List.range 9).map fun c => colNZ t c).sum

/-- The three column counts of block `b` (columns `3b, 3b+1, 3b+2`). -/
def blockNZ (t : Ticket) (b : Nat) : List Nat :=
  [colNZ t (3 * b), colNZ t (3 * b + 1), colNZ t (3 * b + 2)]

/-- Structural well-formedness of the pools handed to the grid filler:
nine pools, each duplicate-free, of at least nine numbers, all within
the column's fixed range.  The pools built by `generate_ticket_strict`
(shuffled copies of the nine ranges) satisfy this. -/
def validPools (cols : List (List Nat)) : Prop :=
  cols.length = 9 ∧ ∀ c < 9, (cols.getD c []).Nodup ∧ 9 ≤ (cols.getD c []).length ∧
    ∀ x ∈ cols.getD c [], colLo c ≤ x ∧ x ≤ colHi c

instance (cols : List (List Nat)) : Decidable (validPools cols) := by
  unfold validPools; infer_instance

/-! ### List utilities -/

theorem getD_set_self {α : Type} (l : List α) (i : Nat) (v : α) {d : α}
    (h : i < l.length) : (l.set i v).getD i d = v := by
  rw [List.getD_eq_getElem?_getD, List.getElem?_set_self h]
  rfl

theorem getD_set_ne {α : Type} (l : List α) {i j : Nat} (v : α) {d : α} (h : i ≠ j) :
    (l.set i v).getD j d = l.getD j d := by
  rw [List.getD_eq_getElem?_getD, List.getElem?_set_ne h, ← List.getD_eq_getElem?_getD]

theorem getD_cons_eraseIdx_perm (l : List Nat) (k : Nat) (hk : k < l.length) :
    (l.getD k 0 :: l.eraseIdx k).Perm l := by
  induction l generalizing k with
  | nil => simp at hk
  | cons x xs ih =>
    cases k with
    | zero => simp
    | succ k =>
      have hk2 : k < xs.length := by simpa using hk
      have h1 : ((x :: xs).getD (k + 1) 0 :: (x :: xs).eraseIdx (k + 1)) =
          xs.getD k 0 :: x :: xs.eraseIdx k := by simp [List.getD_cons_succ]
      rw [h1]
      exact (List.Perm.swap x (xs.getD k 0) _).trans ((ih k hk2).cons x)

theorem countP_range_update (p q : Nat → Bool) {n j : Nat} (hj : j < n)
    (hpq : ∀ i < n, i ≠ j → q i = p i) (hpj : p j = false) (hqj : q j = true) :
    (List.range n).countP q = (List.range n).countP p + 1 := by
  induction n with
  | zero => omega
  | succ n ih =>
    rw [List.range_succ, List.countP_append, List.countP_append]
    rcases Nat.lt_or_ge j n with hjn | hjn
    · have hq : List.countP q [n] = List.countP p [n] := by
        simp only [List.countP_cons, List.countP_nil]
        rw [hpq n (by omega) (by omega)]
      rw [hq, ih hjn (fun i hi h2 => hpq i (by omega) h2)]
      omega
    · have hjn2 : j = n := by omega
      subst hjn2
      have hq : List.countP q [j] = List.countP p [j] + 1 := by
        simp [List.countP_cons, hpj, hqj]
      have hrest : (List.range j).countP q = (List.range j).countP p := by
        apply List.countP_congr
        intro i hi
        rw [hpq i (by simp at hi; omega) (by simp at hi; omega)]
      omega

theorem countP_eq_range (p : Nat → Bool) (l : List Nat) :
    l.countP p = (List.range l.length).countP fun i => p (l.getD i 0) := by
  induction l with
  | nil => simp
  | cons x xs ih =>
    rw [List.countP_cons, List.length_cons, List.range_succ_eq_map, List.countP_cons,
      List.countP_map, ih]
    simp only [Function.comp_def, Nat.succ_eq_add_one, List.getD_cons_succ,
      List.getD_cons_zero]

theorem list3_ext (l : List Nat) (h : l.length = 3) :
    l = [l.getD 0 0, l.getD 1 0, l.getD 2 0] := by
  match l, h with
  | [a, b, c], _ => rfl

theorem list9_ext (l : List Nat) (h : l.length = 9) :
    l = [l.getD 0 0, l.getD 1 0, l.getD 2 0, l.getD 3 0, l.getD 4 0, l.getD 5 0,
         l.getD 6 0, l.getD 7 0, l.getD 8 0] := by
  match l, h with
  | [a, b, c, d, e, f, g, h2, i], _ => rfl

theorem mem3 {a b c r : Nat} (ha : a < 3) (hb : b < 3) (hc : c < 3)
    (hab : a ≠ b) (hac : a ≠ c) (hbc : b ≠ c) (hr : r < 3) : r = a ∨ r = b ∨ r = c := by
  interval_cases a <;> interval_cases b <;> interval_cases c <;> omega

theorem sum3_reindex (f : Nat → Nat) {a b c : Nat} (ha : a < 3) (hb : b < 3) (hc : c < 3)
    (hab : a ≠ b) (hac : a ≠ c) (hbc : b ≠ c) :
    f a + f b + f c = f 0 + f 1 + f 2 := by
  interval_cases a <;> interval_cases b <;> interval_cases c <;> omega

/-! ### Shuffle produces permutations -/

theorem shuffleGo_perm (fuel : Nat) : ∀ (l : List Nat) (g : Rng), l.length ≤ fuel →
    (shuffleGo fuel l g).1.Perm l := by
  induction fuel with
  | zero =>
    intro l g h
    have : l = [] := List.length_eq_zero.mp (by omega)
    subst this
    simp [shuffleGo]
  | succ fuel ih =>
    intro l g h
    rw [shuffleGo]
    by_cases hl : l = []
    · simp [hl]
    · simp only [if_neg hl]
      have hlen : 0 < l.length := List.length_pos.mpr hl
      have hk : (g.next l.length).1 < l.length := Nat.mod_lt _ hlen
      have herase : (l.eraseIdx (g.next l.length).1).length ≤ fuel := by
        have := List.length_eraseIdx_add_one hk
        omega
      exact ((ih _ _ herase).cons _).trans (getD_cons_eraseIdx_perm l _ hk)

theorem shuffle_perm (l : List Nat) (g : Rng) : (shuffle l g).1.Perm l :=
  shuffleGo_perm l.length l g (le_refl _)

theorem shuffleEach_length : ∀ (ls : List (List Nat)) (g : Rng),
    (shuffleEach ls g).1.length = ls.length := by
  intro ls
  induction ls with
  | nil => intro g; rfl
  | cons l ls ih => intro g; simp [shuffleEach, ih]

theorem shuffleEach_perm : ∀ (ls : List (List Nat)) (g : Rng) (i : Nat), i < ls.length →
    ((shuffleEach ls g).1.getD i []).Perm (ls.getD i []) := by
  intro ls
  induction ls with
  | nil => intro g i hi; simp at hi
  | cons l ls ih =>
    intro g i hi
    cases i with
    | zero => simpa [shuffleEach] using shuffle_perm l g
    | succ i => simpa [shuffleEach] using ih _ _ (by simpa using hi)

theorem colRanges_length : colRanges.length = 9 := by decide

theorem validPools_shuffleEach (g : Rng) : validPools (shuffleEach colRanges g).1 := by
  constructor
  · rw [shuffleEach_length, colRanges_length]
  · intro c hc
    have hperm := shuffleEach_perm colRanges g c (by rw [colRanges_length]; omega)
    have hvalid : (colRanges.getD c []).Nodup ∧ 9 ≤ (colRanges.getD c []).length ∧
        ∀ x ∈ colRanges.getD c [], colLo c ≤ x ∧ x ≤ colHi c := by
      interval_cases c <;> decide
    refine ⟨hperm.nodup_iff.mpr hvalid.1, ?_, fun x hx => hvalid.2.2 x (hperm.subset hx)⟩
    rw [hperm.length_eq]
    exact hvalid.2.1

/-! ### Planner-state lemmas -/

/-- Structural well-formedness of a planner state: a 3×9 matrix of 0/1
entries and a length-3 tally list. -/
def Shape (s : PS) : Prop :=
  s.rows.length = 3 ∧ (∀ row ∈ s.rows, row.length = 9) ∧ s.used.length = 3 ∧
    ∀ r < 3, ∀ c < 9, cell s r c = 0 ∨ cell s r c = 1

/-- The tally `row_used[r]` equals the number of occupied cells of row `r`. -/
def UsedSpec (s : PS) : Prop :=
  ∀ r < 3, uval s r = (List.range 9).countP fun c => decide (cell s r c = 1)

theorem row_length {s : PS} (hs : Shape s) {r : Nat} (hr : r < 3) :
    (s.rows.getD r []).length = 9 := by
  have hlen : r < s.rows.length := by rw [hs.1]; exact hr
  rw [List.getD_eq_getElem _ _ hlen]
  exact hs.2.1 _ (List.getElem_mem hlen)

theorem cell_mark_self {s : PS} (hs : Shape s) {r c : Nat} (hr : r < 3) (hc : c < 9) :
    cell (mark s r c) r c = 1 := by
  unfold cell mark
  simp only
  rw [getD_set_self _ _ _ (by rw [hs.1]; exact hr)]
  exact getD_set_self _ _ _ (by rw [row_length hs hr]; exact hc)

theorem cell_mark_ne {s : PS} (hs : Shape s) {r c r2 c2 : Nat} (hr : r < 3)
    (h : r2 ≠ r ∨ c2 ≠ c) : cell (mark s r c) r2 c2 = cell s r2 c2 := by
  unfold cell mark
  simp only
  rcases h with h | h
  · rw [getD_set_ne _ _ (fun e => h e.symm)]
  · by_cases hrr : r2 = r
    · subst hrr
      rw [getD_set_self _ _ _ (by rw [hs.1]; exact hr)]
      rw [List.getD_eq_getElem?_getD, List.getElem?_set_ne (fun e => h e.symm),
        ← List.getD_eq_getElem?_getD]
    · rw [getD_set_ne _ _ (fun e => hrr e.symm)]

theorem uval_mark_self {s : PS} (hs : Shape s) {r : Nat} (hr : r < 3) (c : Nat) :
    uval (mark s r c) r = uval s r + 1 := by
  unfold uval mark
  simp only
  exact getD_set_self _ _ _ (by rw [hs.2.2.1]; exact hr)

theorem uval_mark_ne (s : PS) {r r2 : Nat} (c : Nat) (h : r2 ≠ r) :
    uval (mark s r c) r2 = uval s r2 := by
  unfold uval mark
  simp only
  exact getD_set_ne _ _ (fun e => h e.symm)

theorem shape_mark {s : PS} (hs : Shape s) {r c : Nat} (hr : r < 3) (hc : c < 9) :
    Shape (mark s r c) := by
  refine ⟨by simp [mark, hs.1], ?_, by simp [mark, hs.2.2.1], ?_⟩
  · intro row hrow
    rcases List.mem_or_eq_of_mem_set hrow with h | h
    · exact hs.2.1 row h
    · rw [h, List.length_set]
      exact row_length hs hr
  · intro r2 hr2 c2 hc2
    by_cases h : r2 = r ∧ c2 = c
    · rw [h.1, h.2, cell_mark_self hs hr hc]
      right; rfl
    · rw [cell_mark_ne hs hr (by tauto)]
      exact hs.2.2.2 r2 hr2 c2 hc2

theorem usedSpec_mark {s : PS} (hs : Shape s) (hu : UsedSpec s) {r c : Nat}
    (hr : r < 3) (hc : c < 9) (hcell : cell s r c = 0) : UsedSpec (mark s r c) := by
  intro r2 hr2
  by_cases hrr : r2 = r
  · subst hrr
    rw [uval_mark_self hs hr2]
    rw [hu r2 hr2]
    refine (countP_range_update _ _ hc (fun i hi hic => ?_) ?_ ?_).symm
    · simp only [decide_eq_decide]
      rw [cell_mark_ne hs hr2 (Or.inr hic)]
    · simp [hcell]
    · simp [cell_mark_self hs hr2 hc]
  · rw [uval_mark_ne _ _ hrr, hu r2 hr2]
    apply List.countP_congr
    intro i hi
    simp only [decide_eq_true_eq]
    rw [cell_mark_ne hs hr (Or.inl hrr)]

theorem colsum_mark_self {s : PS} (hs : Shape s) {r c : Nat} (hr : r < 3) (hc : c < 9)
    (hcell : cell s r c = 0) : colsum (mark s r c) c = colsum s c + 1 := by
  unfold colsum
  interval_cases r
  all_goals rw [cell_mark_self hs (by omega) hc, cell_mark_ne hs (by omega) (Or.inl (by omega)),
    cell_mark_ne hs (by omega) (Or.inl (by omega))]
  all_goals omega

theorem colsum_mark_ne {s : PS} (hs : Shape s) {r c c2 : Nat} (hr : r < 3)
    (h : c2 ≠ c) : colsum (mark s r c) c2 = colsum s c2 := by
  unfold colsum
  rw [cell_mark_ne hs hr (Or.inr h), cell_mark_ne hs hr (Or.inr h),
    cell_mark_ne hs hr (Or.inr h)]

/-! ### The tally-sorted row order -/

theorem perm012_cases (l : List Nat) (h : l.Perm [0, 1, 2]) :
    l = [0, 1, 2] ∨ l = [0, 2, 1] ∨ l = [1, 0, 2] ∨ l = [1, 2, 0] ∨
    l = [2, 0, 1] ∨ l = [2, 1, 0] := by
  have h3 : l.length = 3 := h.length_eq
  match l, h3 with
  | [a, b, c], _ =>
    have ha : a = 0 ∨ a = 1 ∨ a = 2 := by
      have := h.subset (show a ∈ [a, b, c] by simp)
      simpa using this
    have hb : b = 0 ∨ b = 1 ∨ b = 2 := by
      have := h.subset (show b ∈ [a, b, c] by simp)
      simpa using this
    have hc : c = 0 ∨ c = 1 ∨ c = 2 := by
      have := h.subset (show c ∈ [a, b, c] by simp)
      simpa using this
    have hnd : ([a, b, c] : List Nat).Nodup := h.nodup_iff.mpr (by decide)
    simp only [List.nodup_cons, List.mem_cons, List.not_mem_nil] at hnd
    rcases ha with rfl | rfl | rfl <;> rcases hb with rfl | rfl | rfl <;>
      rcases hc with rfl | rfl | rfl <;> simp_all

theorem rowOrder_fst (used : List Nat) (g : Rng) :
    (rowOrder used g).1 = (shuffle [0, 1, 2] g).1.insertionSort
      (fun a b => used.getD a 0 ≤ used.getD b 0) := rfl

theorem rowOrder_sorted (used : List Nat) (l : List Nat) :
    (l.insertionSort fun a b => used.getD a 0 ≤ used.getD b 0).Sorted
      (fun a b => used.getD a 0 ≤ used.getD b 0) := by
  haveI : IsTotal Nat (fun a b => used.getD a 0 ≤ used.getD b 0) :=
    ⟨fun a b => Nat.le_total _ _⟩
  haveI : IsTrans Nat (fun a b => used.getD a 0 ≤ used.getD b 0) :=
    ⟨fun a b c hab hbc => le_trans hab hbc⟩
  exact List.sorted_insertionSort _ _

theorem rowOrder_spec (used : List Nat) (g : Rng) :
    ∃ a b c, (rowOrder used g).1 = [a, b, c] ∧ a < 3 ∧ b < 3 ∧ c < 3 ∧
      a ≠ b ∧ a ≠ c ∧ b ≠ c ∧
      used.getD a 0 ≤ used.getD b 0 ∧ used.getD b 0 ≤ used.getD c 0 := by
  have hperm : ((shuffle [0, 1, 2] g).1.insertionSort
      (fun a b => used.getD a 0 ≤ used.getD b 0)).Perm [0, 1, 2] :=
    (List.perm_insertionSort _ _).trans (shuffle_perm _ _)
  have hsort := rowOrder_sorted used (shuffle [0, 1, 2] g).1
  rw [← rowOrder_fst] at hperm hsort
  rcases perm012_cases _ hperm with h | h | h | h | h | h <;>
    rw [h] at hsort <;>
    simp only [List.sorted_cons, List.mem_cons, List.mem_singleton,
      List.not_mem_nil, List.sorted_nil] at hsort <;>
    exact ⟨_, _, _, h, by omega, by omega, by omega, by omega, by omega, by omega,
      by tauto, by tauto⟩

/-! ### Evaluating the placement helpers -/

theorem colsum_of_fresh {s : PS} {ci : Nat} (h : ∀ r < 3, cell s r ci = 0) :
    colsum s ci = 0 := by
  unfold colsum
  rw [h 0 (by omega), h 1 (by omega), h 2 (by omega)]

theorem placeOne_eval {s : PS} {ci a : Nat} (bs : List Nat)
    (hca : cell s a ci = 0) (hua : uval s a < 5) :
    placeOne ci (a :: bs) s = (mark s a ci, true) := by
  simp only [placeOne, if_pos (And.intro hca hua)]

theorem placeTwo_eval {s : PS} {ci a b : Nat} (cs : List Nat) (hs : Shape s)
    (ha : a < 3) (hb : b < 3) (hci : ci < 9) (hab : a ≠ b)
    (hca : cell s a ci = 0) (hcb : cell s b ci = 0)
    (hcol : colsum s ci = 0)
    (hua : uval s a < 5) (hub : uval s b < 5) :
    placeTwo ci (a :: b :: cs) s = mark (mark s a ci) b ci ∧
      colsum (mark (mark s a ci) b ci) ci = 2 := by
  have hs1 : Shape (mark s a ci) := shape_mark hs ha hci
  have hcol1 : colsum (mark s a ci) ci = 1 := by
    rw [colsum_mark_self hs ha hci hca, hcol]
  have hcb1 : cell (mark s a ci) b ci = 0 := by
    rw [cell_mark_ne hs ha (Or.inl (Ne.symm hab))]
    exact hcb
  have hub1 : uval (mark s a ci) b < 5 := by
    rw [uval_mark_ne _ _ (Ne.symm hab)]
    exact hub
  have hcol2 : colsum (mark (mark s a ci) b ci) ci = 2 := by
    rw [colsum_mark_self hs1 hb hci hcb1, hcol1]
  refine ⟨?_, hcol2⟩
  rw [placeTwo, if_pos (And.intro hca hua), if_neg (by omega), placeTwo,
    if_pos (And.intro hcb1 hub1), if_pos hcol2]

/-! ### The placement invariant

While the strict attempt (and likewise the fallback passes) walks over
the columns, the state keeps: correct shape and tallies, tallies at most
5 and pairwise within 1 of each other, the exact count of still-needed
marks, untouched columns for the unprocessed part, and exact column sums
for the processed part.  This is what makes every placement succeed. -/

structure Inv (counts : List Nat) (rest : List Nat) (s : PS) : Prop where
  shape : Shape s
  uspec : UsedSpec s
  ule : ∀ r < 3, uval s r ≤ 5
  spread : ∀ r < 3, ∀ r2 < 3, uval s r ≤ uval s r2 + 1
  total : uval s 0 + uval s 1 + uval s 2 + (rest.map fun ci => counts.getD ci 0).sum = 15
  fresh : ∀ ci ∈ rest, ∀ r < 3, cell s r ci = 0
  dcol : ∀ ci < 9, ci ∉ rest → colsum s ci = counts.getD ci 0
  nd : rest.Nodup
  bdd : ∀ ci ∈ rest, ci < 9

theorem uval_sum_mark {s : PS} (hs : Shape s) {a : Nat} (ha : a < 3) (ci : Nat) :
    uval (mark s a ci) 0 + uval (mark s a ci) 1 + uval (mark s a ci) 2 =
      uval s 0 + uval s 1 + uval s 2 + 1 := by
  have ha3 : a = 0 ∨ a = 1 ∨ a = 2 := by omega
  rcases ha3 with rfl | rfl | rfl
  · rw [uval_mark_self hs ha ci, uval_mark_ne s ci (show (1 : Nat) ≠ 0 by decide),
      uval_mark_ne s ci (show (2 : Nat) ≠ 0 by decide)]
    omega
  · rw [uval_mark_self hs ha ci, uval_mark_ne s ci (show (0 : Nat) ≠ 1 by decide),
      uval_mark_ne s ci (show (2 : Nat) ≠ 1 by decide)]
    omega
  · rw [uval_mark_self hs ha ci, uval_mark_ne s ci (show (0 : Nat) ≠ 2 by decide),
      uval_mark_ne s ci (show (1 : Nat) ≠ 2 by decide)]
    omega

theorem inv_after_one {counts : List Nat} {ci : Nat} {rest : List Nat} {s : PS} {a : Nat}
    (hI : Inv counts (ci :: rest) s) (hneed : counts.getD ci 0 = 1)
    (ha : a < 3) (hamin : ∀ r < 3, uval s a ≤ uval s r) :
    Inv counts rest (mark s a ci) := by
  have hci : ci < 9 := hI.bdd ci (by simp)
  have hbase : ∀ r < 3, cell s r ci = 0 := hI.fresh ci (by simp)
  have hcol0 : colsum s ci = 0 := colsum_of_fresh hbase
  have hcinot : ci ∉ rest := (List.nodup_cons.mp hI.nd).1
  have htot := hI.total
  rw [List.map_cons, List.sum_cons, hneed] at htot
  have hrsum : 0 ≤ (rest.map fun ci2 => counts.getD ci2 0).sum := Nat.zero_le _
  have husum : uval s a + uval s a + uval s a ≤
      uval s 0 + uval s 1 + uval s 2 := by
    have h0 := hamin 0 (by omega)
    have h1 := hamin 1 (by omega)
    have h2 := hamin 2 (by omega)
    omega
  have hua : uval s a ≤ 4 := by omega
  refine ⟨shape_mark hI.shape ha hci,
    usedSpec_mark hI.shape hI.uspec ha hci (hbase a ha), ?_, ?_, ?_, ?_, ?_,
    (List.nodup_cons.mp hI.nd).2, fun ci2 h => hI.bdd ci2 (by simp [h])⟩
  · intro r hr
    by_cases hra : r = a
    · subst hra
      rw [uval_mark_self hI.shape hr ci]
      omega
    · rw [uval_mark_ne s ci hra]
      exact hI.ule r hr
  · intro r hr r2 hr2
    by_cases hra : r = a <;> by_cases hr2a : r2 = a
    · subst hra; subst hr2a; omega
    · subst hra
      rw [uval_mark_self hI.shape hr ci, uval_mark_ne s ci hr2a]
      have := hamin r2 hr2
      omega
    · subst hr2a
      rw [uval_mark_self hI.shape hr2 ci, uval_mark_ne s ci hra]
      have := hI.spread r hr r2 hr2
      omega
    · rw [uval_mark_ne s ci hra, uval_mark_ne s ci hr2a]
      exact hI.spread r hr r2 hr2
  · rw [uval_sum_mark hI.shape ha ci]
    omega
  · intro ci2 hmem r hr
    have hne : ci2 ≠ ci := fun h => hcinot (h ▸ hmem)
    rw [cell_mark_ne hI.shape ha (Or.inr hne)]
    exact hI.fresh ci2 (by simp [hmem]) r hr
  · intro ci2 h9 hnot
    by_cases hcc : ci2 = ci
    · subst hcc
      rw [colsum_mark_self hI.shape ha hci (hbase a ha), hcol0, hneed]
    · rw [colsum_mark_ne hI.shape ha hcc]
      exact hI.dcol ci2 h9 (by simp [hcc, hnot])

theorem inv_after_two {counts : List Nat} {ci : Nat} {rest : List Nat} {s : PS}
    {a b c : Nat} (hI : Inv counts (ci :: rest) s) (hneed : counts.getD ci 0 = 2)
    (ha : a < 3) (hb : b < 3) (hc : c < 3) (hab : a ≠ b) (hac : a ≠ c) (hbc : b ≠ c)
    (hsab : uval s a ≤ uval s b) (hsbc : uval s b ≤ uval s c) :
    Inv counts rest (mark (mark s a ci) b ci) := by
  have hci : ci < 9 := hI.bdd ci (by simp)
  have hbase : ∀ r < 3, cell s r ci = 0 := hI.fresh ci (by simp)
  have hcol0 : colsum s ci = 0 := colsum_of_fresh hbase
  have hcinot : ci ∉ rest := (List.nodup_cons.mp hI.nd).1
  have htot := hI.total
  rw [List.map_cons, List.sum_cons, hneed] at htot
  have hsum3 : uval s a + uval s b + uval s c =
      uval s 0 + uval s 1 + uval s 2 := sum3_reindex (uval s) ha hb hc hab hac hbc
  have hspab := hI.spread b hb a ha
  have hub4 : uval s b ≤ 4 := by omega
  have hua4 : uval s a ≤ 4 := by omega
  have hmem : ∀ r < 3, r = a ∨ r = b ∨ r = c := fun r hr => mem3 ha hb hc hab hac hbc hr
  -- the state after the first mark
  have hs1 : Shape (mark s a ci) := shape_mark hI.shape ha hci
  have hcb1 : cell (mark s a ci) b ci = 0 := by
    rw [cell_mark_ne hI.shape ha (Or.inl (Ne.symm hab))]
    exact hbase b hb
  -- tallies of the final state
  have huv : ∀ r < 3, uval (mark (mark s a ci) b ci) r =
      if r = b then uval s b + 1 else if r = a then uval s a + 1 else uval s r := by
    intro r hr
    by_cases hrb : r = b
    · subst hrb
      rw [if_pos rfl, uval_mark_self hs1 hr ci, uval_mark_ne s ci (Ne.symm hab)]
    · rw [if_neg hrb, uval_mark_ne _ ci hrb]
      by_cases hra : r = a
      · subst hra
        rw [if_pos rfl, uval_mark_self hI.shape hr ci]
      · rw [if_neg hra, uval_mark_ne s ci hra]
  refine ⟨shape_mark hs1 hb hci,
    usedSpec_mark hs1 (usedSpec_mark hI.shape hI.uspec ha hci (hbase a ha)) hb hci hcb1,
    ?_, ?_, ?_, ?_, ?_,
    (List.nodup_cons.mp hI.nd).2, fun ci2 h => hI.bdd ci2 (by simp [h])⟩
  · intro r hr
    rw [huv r hr]
    have h5 := hI.ule r hr
    split
    · omega
    · split
      · omega
      · omega
  · intro r hr r2 hr2
    rw [huv r hr, huv r2 hr2]
    have hspca := hI.spread c hc a ha
    have hspcb := hI.spread c hc b hb
    rcases hmem r hr with rfl | rfl | rfl <;> rcases hmem r2 hr2 with rfl | rfl | rfl <;>
      simp [hab, hac, hbc, Ne.symm hab, Ne.symm hac, Ne.symm hbc] <;> omega
  · have hsm : uval (mark (mark s a ci) b ci) 0 + uval (mark (mark s a ci) b ci) 1 +
        uval (mark (mark s a ci) b ci) 2 = uval s 0 + uval s 1 + uval s 2 + 2 := by
      rw [uval_sum_mark hs1 hb ci, uval_sum_mark hI.shape ha ci]
    rw [hsm]
    omega
  · intro ci2 hmem2 r hr
    have hne : ci2 ≠ ci := fun h => hcinot (h ▸ hmem2)
    rw [cell_mark_ne hs1 hb (Or.inr hne), cell_mark_ne hI.shape ha (Or.inr hne)]
    exact hI.fresh ci2 (by simp [hmem2]) r hr
  · intro ci2 h9 hnot
    by_cases hcc : ci2 = ci
    · subst hcc
      rw [colsum_mark_self hs1 hb hci hcb1, colsum_mark_self hI.shape ha hci (hbase a ha),
        hcol0, hneed]
    · rw [colsum_mark_ne hs1 hb hcc, colsum_mark_ne hI.shape ha hcc]
      exact hI.dcol ci2 h9 (by simp [hcc, hnot])

theorem inv_after_three {counts : List Nat} {ci : Nat} {rest : List Nat} {s : PS}
    (hI : Inv counts (ci :: rest) s) (hneed : counts.getD ci 0 = 3) :
    Inv counts rest (mark (mark (mark s 0 ci) 1 ci) 2 ci) := by
  have hci : ci < 9 := hI.bdd ci (by simp)
  have hbase : ∀ r < 3, cell s r ci = 0 := hI.fresh ci (by simp)
  have hcol0 : colsum s ci = 0 := colsum_of_fresh hbase
  have hcinot : ci ∉ rest := (List.nodup_cons.mp hI.nd).1
  have htot := hI.total
  rw [List.map_cons, List.sum_cons, hneed] at htot
  have hs1 : Shape (mark s 0 ci) := shape_mark hI.shape (by omega) hci
  have hc1 : cell (mark s 0 ci) 1 ci = 0 := by
    rw [cell_mark_ne hI.shape (by omega) (Or.inl (by decide))]
    exact hbase 1 (by omega)
  have hs2 : Shape (mark (mark s 0 ci) 1 ci) := shape_mark hs1 (by omega) hci
  have hc2 : cell (mark (mark s 0 ci) 1 ci) 2 ci = 0 := by
    rw [cell_mark_ne hs1 (by omega) (Or.inl (by decide)),
      cell_mark_ne hI.shape (by omega) (Or.inl (by decide))]
    exact hbase 2 (by omega)
  have huv : ∀ r < 3, uval (mark (mark (mark s 0 ci) 1 ci) 2 ci) r = uval s r + 1 := by
    intro r hr
    have hr3 : r = 0 ∨ r = 1 ∨ r = 2 := by omega
    rcases hr3 with rfl | rfl | rfl
    · rw [uval_mark_ne _ ci (show (0 : Nat) ≠ 2 by decide),
        uval_mark_ne _ ci (show (0 : Nat) ≠ 1 by decide),
        uval_mark_self hI.shape (by omega) ci]
    · rw [uval_mark_ne _ ci (show (1 : Nat) ≠ 2 by decide),
        uval_mark_self hs1 (by omega) ci, uval_mark_ne s ci (show (1 : Nat) ≠ 0 by decide)]
    · rw [uval_mark_self hs2 (by omega) ci, uval_mark_ne _ ci (show (2 : Nat) ≠ 1 by decide),
        uval_mark_ne s ci (show (2 : Nat) ≠ 0 by decide)]
  have hspr := hI.spread
  have h01 := hI.spread 0 (by omega) 1 (by omega)
  have h10 := hI.spread 1 (by omega) 0 (by omega)
  have h02 := hI.spread 0 (by omega) 2 (by omega)
  have h20 := hI.spread 2 (by omega) 0 (by omega)
  have h12 := hI.spread 1 (by omega) 2 (by omega)
  have h21 := hI.spread 2 (by omega) 1 (by omega)
  refine ⟨shape_mark hs2 (by omega) hci,
    usedSpec_mark hs2 (usedSpec_mark hs1
      (usedSpec_mark hI.shape hI.uspec (by omega) hci (hbase 0 (by omega)))
      (by omega) hci hc1) (by omega) hci hc2,
    ?_, ?_, ?_, ?_, ?_,
    (List.nodup_cons.mp hI.nd).2, fun ci2 h => hI.bdd ci2 (by simp [h])⟩
  · intro r hr
    rw [huv r hr]
    have hr3 : r = 0 ∨ r = 1 ∨ r = 2 := by omega
    rcases hr3 with rfl | rfl | rfl <;> omega
  · intro r hr r2 hr2
    rw [huv r hr, huv r2 hr2]
    have := hI.spread r hr r2 hr2
    omega
  · rw [huv 0 (by omega), huv 1 (by omega), huv 2 (by omega)]
    omega
  · intro ci2 hmem2 r hr
    have hne : ci2 ≠ ci := fun h => hcinot (h ▸ hmem2)
    rw [cell_mark_ne hs2 (by omega) (Or.inr hne), cell_mark_ne hs1 (by omega) (Or.inr hne),
      cell_mark_ne hI.shape (by omega) (Or.inr hne)]
    exact hI.fresh ci2 (by simp [hmem2]) r hr
  · intro ci2 h9 hnot
    by_cases hcc : ci2 = ci
    · subst hcc
      rw [colsum_mark_self hs2 (by omega) hci hc2, colsum_mark_self hs1 (by omega) hci hc1,
        colsum_mark_self hI.shape (by omega) hci (hbase 0 (by omega)), hcol0, hneed]
    · rw [colsum_mark_ne hs2 (by omega) hcc, colsum_mark_ne hs1 (by omega) hcc,
        colsum_mark_ne hI.shape (by omega) hcc]
      exact hI.dcol ci2 h9 (by simp [hcc, hnot])

theorem placeColumn_sound {counts : List Nat} {ci : Nat} {rest : List Nat} {s : PS}
    (g : Rng) (hI : Inv counts (ci :: rest) s)
    (hlo : 1 ≤ counts.getD ci 0) (hhi : counts.getD ci 0 ≤ 3) :
    ∃ s2 g2, placeColumn counts s g ci = (s2, true, g2) ∧ Inv counts rest s2 := by
  have hci : ci < 9 := hI.bdd ci (by simp)
  have hbase : ∀ r < 3, cell s r ci = 0 := hI.fresh ci (by simp)
  have hcol0 : colsum s ci = 0 := colsum_of_fresh hbase
  have htot := hI.total
  rw [List.map_cons, List.sum_cons] at htot
  obtain ⟨a, b, c, hord, ha, hb, hc, hab, hac, hbc, hsab, hsbc⟩ := rowOrder_spec s.used g
  have husab : uval s a ≤ uval s b := hsab
  have husbc : uval s b ≤ uval s c := hsbc
  have hsum3 : uval s a + uval s b + uval s c = uval s 0 + uval s 1 + uval s 2 :=
    sum3_reindex (uval s) ha hb hc hab hac hbc
  by_cases h3 : counts.getD ci 0 = 3
  · refine ⟨_, g, ?_, inv_after_three hI h3⟩
    simp only [placeColumn, if_pos h3]
  · by_cases h2 : counts.getD ci 0 = 2
    · have hspba := hI.spread b hb a ha
      have hub : uval s b < 5 := by omega
      have hua : uval s a < 5 := by omega
      obtain ⟨hpt, hcol2⟩ := placeTwo_eval [c] hI.shape ha hb hci hab
        (hbase a ha) (hbase b hb) hcol0 hua hub
      refine ⟨_, (rowOrder s.used g).2, ?_, inv_after_two hI h2 ha hb hc hab hac hbc husab husbc⟩
      simp only [placeColumn, if_neg h3, if_pos h2]
      rw [hord, hpt]
      simp [hcol2]
    · have h1 : counts.getD ci 0 = 1 := by omega
      have hamin : ∀ r < 3, uval s a ≤ uval s r := by
        intro r hr
        rcases mem3 ha hb hc hab hac hbc hr with rfl | rfl | rfl <;> omega
      have hua : uval s a < 5 := by
        have h0 := hamin 0 (by omega)
        have hh1 := hamin 1 (by omega)
        have hh2 := hamin 2 (by omega)
        omega
      refine ⟨_, (rowOrder s.used g).2, ?_, inv_after_one hI h1 ha hamin⟩
      simp only [placeColumn, if_neg h3, if_neg h2]
      rw [hord, placeOne_eval [b, c] (hbase a ha) hua]

theorem placeColumns_sound {counts : List Nat} : ∀ (rest : List Nat) (s : PS) (g : Rng),
    Inv counts rest s → (∀ ci ∈ rest, 1 ≤ counts.getD ci 0 ∧ counts.getD ci 0 ≤ 3) →
    ∃ s2 g2, placeColumns counts rest s g = (s2, true, g2) ∧ Inv counts [] s2 := by
  intro rest
  induction rest with
  | nil => exact fun s g hI _ => ⟨s, g, rfl, hI⟩
  | cons ci rest ih =>
    intro s g hI hb
    obtain ⟨s2, g2, heq, hI2⟩ :=
      placeColumn_sound g hI (hb ci (by simp)).1 (hb ci (by simp)).2
    obtain ⟨s3, g3, heq3, hI3⟩ := ih s2 g2 hI2 (fun ci2 h => hb ci2 (by simp [h]))
    refine ⟨s3, g3, ?_, hI3⟩
    simp only [placeColumns, heq, heq3]
    exact if_pos trivial

theorem getD_replicate_zero (n i : Nat) : (List.replicate n (0 : Nat)).getD i 0 = 0 := by
  rcases Nat.lt_or_ge i n with h | h
  · rw [List.getD_eq_getElem (List.replicate n 0) 0 (by simpa using h)]
    exact List.getElem_replicate _ _
  · exact List.getD_eq_default _ _ (by simpa using h)

theorem cell_init (r ci : Nat) : cell initPS r ci = 0 := by
  show ((List.replicate 3 (List.replicate 9 (0 : Nat))).getD r []).getD ci 0 = 0
  rcases Nat.lt_or_ge r 3 with hr | hr
  · rw [List.getD_eq_getElem (List.replicate 3 (List.replicate 9 0)) [] (by simpa using hr),
      List.getElem_replicate]
    exact getD_replicate_zero _ _
  · rw [List.getD_eq_default (List.replicate 3 (List.replicate 9 0)) [] (by simpa using hr)]
    rfl

theorem shape_init : Shape initPS := by
  refine ⟨rfl, ?_, rfl, fun r _ c _ => Or.inl (cell_init r c)⟩
  intro row hrow
  simp only [initPS, List.mem_replicate] at hrow
  rw [hrow.2]
  rfl

theorem inv_init (counts : List Nat) (order : List Nat)
    (hperm : order.Perm (List.range 9))
    (hsum9 : ((List.range 9).map fun ci => counts.getD ci 0).sum = 15) :
    Inv counts order initPS := by
  refine ⟨shape_init, ?_, by decide, by decide, ?_, ?_, ?_, ?_, ?_⟩
  · intro r hr
    have : ∀ c ∈ List.range 9, (decide (cell initPS r c = 1)) = false := by
      intro c _
      simp [cell_init]
    rw [List.countP_eq_length_filter, List.filter_eq_nil_iff.mpr (by simpa using this)]
    have hr3 : r = 0 ∨ r = 1 ∨ r = 2 := by omega
    rcases hr3 with rfl | rfl | rfl <;> rfl
  · have : (order.map fun ci => counts.getD ci 0).sum =
        ((List.range 9).map fun ci => counts.getD ci 0).sum :=
      (hperm.map _).sum_eq
    rw [this, hsum9]
    rfl
  · exact fun ci _ r _ => cell_init r ci
  · intro ci h9 hnot
    exact absurd (hperm.mem_iff.mpr (List.mem_range.mpr h9)) hnot
  · exact hperm.nodup_iff.mpr (List.nodup_range 9)
  · exact fun ci h => List.mem_range.mp (hperm.subset h)

theorem topUpRow_noop {counts : List Nat} {r : Nat} {s : PS} (g : Rng) (fuel : Nat)
    (h : ¬ uval s r < 5) : topUpRow counts r fuel s g = (s, true, g) := by
  cases fuel with
  | zero => rfl
  | succ fuel => simp only [topUpRow, if_neg h]

theorem topUpAll_noop {counts : List Nat} {s : PS} (g : Rng)
    (h5 : ∀ r < 3, uval s r = 5) :
    topUpAll counts [0, 1, 2] s g = (s, true, g) := by
  have h0 : ¬ uval s 0 < 5 := by rw [h5 0 (by omega)]; omega
  have h1 : ¬ uval s 1 < 5 := by rw [h5 1 (by omega)]; omega
  have h2 : ¬ uval s 2 < 5 := by rw [h5 2 (by omega)]; omega
  simp only [topUpAll, topUpRow_noop g 5 h0, topUpRow_noop g 5 h1, topUpRow_noop g 5 h2,
    if_pos]

theorem inv_final_valid {counts : List Nat} {s : PS} (hI : Inv counts [] s) :
    validLayout counts s ∧ (∀ r < 3, uval s r = 5) := by
  have htot := hI.total
  simp only [List.map_nil, List.sum_nil, Nat.add_zero] at htot
  have h0 := hI.ule 0 (by omega)
  have h1 := hI.ule 1 (by omega)
  have h2 := hI.ule 2 (by omega)
  have h5 : ∀ r < 3, uval s r = 5 := by
    intro r hr
    have hr3 : r = 0 ∨ r = 1 ∨ r = 2 := by omega
    rcases hr3 with rfl | rfl | rfl <;> omega
  refine ⟨⟨?_, fun ci h9 => hI.dcol ci h9 (by simp)⟩, h5⟩
  have hext := list3_ext s.used hI.shape.2.2.1
  rw [hext]
  have e0 : s.used.getD 0 0 = 5 := h5 0 (by omega)
  have e1 : s.used.getD 1 0 = 5 := h5 1 (by omega)
  have e2 : s.used.getD 2 0 = 5 := h5 2 (by omega)
  rw [e0, e1, e2]

theorem attemptOnce_sound {counts : List Nat} (g : Rng)
    (hsum9 : ((List.range 9).map fun ci => counts.getD ci 0).sum = 15)
    (hbnd : ∀ ci < 9, 1 ≤ counts.getD ci 0 ∧ counts.getD ci 0 ≤ 3) :
    ∃ s2 g2, attemptOnce counts g = (s2, true, g2) ∧ validLayout counts s2 ∧
      Shape s2 ∧ UsedSpec s2 := by
  have hperm : (strictOrder counts).Perm (List.range 9) := List.perm_insertionSort _ _
  have hI0 := inv_init counts (strictOrder counts) hperm hsum9
  obtain ⟨s2, g2, heq, hI2⟩ := placeColumns_sound (strictOrder counts) initPS g hI0
    (fun ci h => hbnd ci (List.mem_range.mp (hperm.subset h)))
  obtain ⟨hval, h5⟩ := inv_final_valid hI2
  refine ⟨s2, g2, ?_, hval, hI2.shape, hI2.uspec⟩
  simp only [attemptOnce, heq, topUpAll_noop g2 h5, if_pos]

theorem attemptLoop_sound {counts : List Nat} (g : Rng) {n : Nat} (hn : 0 < n)
    (hsum9 : ((List.range 9).map fun ci => counts.getD ci 0).sum = 15)
    (hbnd : ∀ ci < 9, 1 ≤ counts.getD ci 0 ∧ counts.getD ci 0 ≤ 3) :
    ∃ s2 g2, attemptLoop counts n g = (some s2, g2) ∧ validLayout counts s2 ∧
      Shape s2 ∧ UsedSpec s2 := by
  cases n with
  | zero => omega
  | succ n =>
    obtain ⟨s2, g2, heq, hval, hsh, hus⟩ := attemptOnce_sound g hsum9 hbnd
    refine ⟨s2, g2, ?_, hval, hsh, hus⟩
    simp only [attemptLoop, heq]
    rw [if_pos ⟨trivial, hval⟩]

/-! ### Facts about the balanced count assignment -/

/-- The three per-column counts of block `b` of a count list. -/
def blockVals (counts : List Nat) (b : Nat) : List Nat :=
  [counts.getD (3 * b) 0, counts.getD (3 * b + 1) 0, counts.getD (3 * b + 2) 0]

theorem getD_replicate_one (i : Nat) (h : i < 9) :
    (List.replicate 9 (1 : Nat)).getD i 0 = 1 := by
  rw [List.getD_eq_getElem (List.replicate 9 1) 0 (by simpa using h)]
  exact List.getElem_replicate _ _

theorem countStep_spec (tb : List Nat) (acc : List Nat × Rng) (b : Nat) (hb : b < 3)
    (hlen : acc.1.length = 9)
    (h0 : acc.1.getD (3 * b) 0 = 1) (h1 : acc.1.getD (3 * b + 1) 0 = 1)
    (h2 : acc.1.getD (3 * b + 2) 0 = 1) :
    (countStep tb acc b).1.length = 9 ∧
    (∀ j, j < 3 * b ∨ 3 * b + 3 ≤ j → (countStep tb acc b).1.getD j 0 = acc.1.getD j 0) ∧
    (blockVals (countStep tb acc b).1 b).insertionSort (fun x y => x ≤ y) =
      (if b ∈ tb then [1, 1, 3] else [1, 2, 2]) := by
  have hne1 : (3 * b : Nat) ≠ 3 * b + 1 := by omega
  have hne2 : (3 * b : Nat) ≠ 3 * b + 2 := by omega
  have hne3 : (3 * b + 1 : Nat) ≠ 3 * b := by omega
  have hne4 : (3 * b + 1 : Nat) ≠ 3 * b + 2 := by omega
  have hne5 : (3 * b + 2 : Nat) ≠ 3 * b := by omega
  have hne6 : (3 * b + 2 : Nat) ≠ 3 * b + 1 := by omega
  have h9a : 3 * b < 9 := by omega
  have h9b : 3 * b + 1 < 9 := by omega
  have h9c : 3 * b + 2 < 9 := by omega
  have h0e : ∀ hh : 3 * b < acc.1.length, acc.1[3 * b] = 1 := fun hh => by
    rw [← List.getD_eq_getElem acc.1 0 hh]
    exact h0
  have h1e : ∀ hh : 3 * b + 1 < acc.1.length, acc.1[3 * b + 1] = 1 := fun hh => by
    rw [← List.getD_eq_getElem acc.1 0 hh]
    exact h1
  have h2e : ∀ hh : 3 * b + 2 < acc.1.length, acc.1[3 * b + 2] = 1 := fun hh => by
    rw [← List.getD_eq_getElem acc.1 0 hh]
    exact h2
  by_cases hmem : b ∈ tb
  · simp only [countStep, if_pos hmem]
    have hk : (acc.2.next 3).1 < 3 := Nat.mod_lt _ (by omega)
    have hk3 : (acc.2.next 3).1 = 0 ∨ (acc.2.next 3).1 = 1 ∨
        (acc.2.next 3).1 = 2 := by omega
    rcases hk3 with hk0 | hk0 | hk0 <;>
      rw [hk0] <;>
      simp only [List.getD_cons_zero, List.getD_cons_succ] <;>
      refine ⟨by simp [hlen], fun j hj => getD_set_ne _ _ (by omega), ?_⟩ <;>
      simp only [blockVals] <;>
      simp [getD_set_self, getD_set_ne, List.length_set, hlen, hne1, hne2, hne3, hne4,
        hne5, hne6, h9a, h9b, h9c, h0, h1, h2, h0e, h1e, h2e]
  · simp only [countStep, if_neg hmem]
    have hk : (acc.2.next 3).1 < 3 := Nat.mod_lt _ (by omega)
    have hk3 : (acc.2.next 3).1 = 0 ∨ (acc.2.next 3).1 = 1 ∨
        (acc.2.next 3).1 = 2 := by omega
    have hk2 : ((acc.2.next 3).2.next 2).1 < 2 := Nat.mod_lt _ (by omega)
    have hk22 : ((acc.2.next 3).2.next 2).1 = 0 ∨
        ((acc.2.next 3).2.next 2).1 = 1 := by omega
    rcases hk3 with hk0 | hk0 | hk0 <;> rcases hk22 with hk1 | hk1 <;>
      rw [hk0, hk1] <;>
      simp only [List.getD_cons_zero, List.getD_cons_succ, List.eraseIdx] <;>
      refine ⟨by simp [hlen], fun j hj => by
        rw [getD_set_ne _ _ (by omega), getD_set_ne _ _ (by omega)], ?_⟩ <;>
      simp only [blockVals] <;>
      simp [getD_set_self, getD_set_ne, List.length_set, hlen, hne1, hne2, hne3, hne4,
        hne5, hne6, h9a, h9b, h9c, h0, h1, h2, h0e, h1e, h2e]

theorem take2_mem {bl : List Nat} (h : bl.Perm [0, 1, 2]) :
    ∃ db < 3, ∀ b < 3, (b ∈ bl.take 2 ↔ b ≠ db) := by
  rcases perm012_cases bl h with h2 | h2 | h2 | h2 | h2 | h2 <;> subst h2
  · exact ⟨2, by omega, by decide⟩
  · exact ⟨1, by omega, by decide⟩
  · exact ⟨2, by omega, by decide⟩
  · exact ⟨0, by omega, by decide⟩
  · exact ⟨1, by omega, by decide⟩
  · exact ⟨0, by omega, by decide⟩

theorem strictCounts_spec (g : Rng) :
    ∃ db < 3, (strictCounts g).1.length = 9 ∧
      ∀ b < 3, (blockVals (strictCounts g).1 b).insertionSort (fun x y => x ≤ y) =
        (if b = db then [1, 2, 2] else [1, 1, 3]) := by
  obtain ⟨db, hdb, hiff⟩ := take2_mem (shuffle_perm [0, 1, 2] g)
  have hSC : strictCounts g = countStep ((shuffle [0, 1, 2] g).1.take 2)
      (countStep ((shuffle [0, 1, 2] g).1.take 2)
        (countStep ((shuffle [0, 1, 2] g).1.take 2)
          (List.replicate 9 1, (shuffle [0, 1, 2] g).2) 0) 1) 2 := rfl
  have hrep : ∀ i, i < 9 → (List.replicate 9 (1 : Nat)).getD i 0 = 1 :=
    fun i h => getD_replicate_one i h
  obtain ⟨hlen0, hout0, hblk0⟩ := countStep_spec ((shuffle [0, 1, 2] g).1.take 2)
    (List.replicate 9 1, (shuffle [0, 1, 2] g).2) 0 (by omega) (by simp)
    (hrep _ (by omega)) (hrep _ (by omega)) (hrep _ (by omega))
  obtain ⟨hlen1, hout1, hblk1⟩ := countStep_spec ((shuffle [0, 1, 2] g).1.take 2)
    (countStep ((shuffle [0, 1, 2] g).1.take 2)
      (List.replicate 9 1, (shuffle [0, 1, 2] g).2) 0) 1 (by omega) hlen0
    (by rw [hout0 _ (by omega)]; exact hrep _ (by omega))
    (by rw [hout0 _ (by omega)]; exact hrep _ (by omega))
    (by rw [hout0 _ (by omega)]; exact hrep _ (by omega))
  obtain ⟨hlen2, hout2, hblk2⟩ := countStep_spec ((shuffle [0, 1, 2] g).1.take 2)
    (countStep ((shuffle [0, 1, 2] g).1.take 2)
      (countStep ((shuffle [0, 1, 2] g).1.take 2)
        (List.replicate 9 1, (shuffle [0, 1, 2] g).2) 0) 1) 2 (by omega) hlen1
    (by rw [hout1 _ (by omega), hout0 _ (by omega)]; exact hrep _ (by omega))
    (by rw [hout1 _ (by omega), hout0 _ (by omega)]; exact hrep _ (by omega))
    (by rw [hout1 _ (by omega), hout0 _ (by omega)]; exact hrep _ (by omega))
  refine ⟨db, hdb, by rw [hSC]; exact hlen2, ?_⟩
  intro b hb
  have hb3 : b = 0 ∨ b = 1 ∨ b = 2 := by omega
  have hiffb := hiff b hb
  have hswap : (if b ∈ (shuffle [0, 1, 2] g).1.take 2 then [1, 1, 3] else [1, 2, 2]) =
      (if b = db then ([1, 2, 2] : List Nat) else [1, 1, 3]) := by
    by_cases hbd : b = db
    · rw [if_pos hbd, if_neg (fun hmem => (hiffb.mp hmem) hbd)]
    · rw [if_neg hbd, if_pos (hiffb.mpr hbd)]
  rcases hb3 with rfl | rfl | rfl
  · have hbv : blockVals (strictCounts g).1 0 =
        blockVals (countStep ((shuffle [0, 1, 2] g).1.take 2)
          (List.replicate 9 1, (shuffle [0, 1, 2] g).2) 0).1 0 := by
      rw [hSC]
      unfold blockVals
      rw [hout2 _ (by omega), hout2 _ (by omega), hout2 _ (by omega),
        hout1 _ (by omega), hout1 _ (by omega), hout1 _ (by omega)]
    rw [hbv, hblk0, hswap]
  · have hbv : blockVals (strictCounts g).1 1 =
        blockVals (countStep ((shuffle [0, 1, 2] g).1.take 2)
          (countStep ((shuffle [0, 1, 2] g).1.take 2)
            (List.replicate 9 1, (shuffle [0, 1, 2] g).2) 0) 1).1 1 := by
      rw [hSC]
      unfold blockVals
      rw [hout2 _ (by omega), hout2 _ (by omega), hout2 _ (by omega)]
    rw [hbv, hblk1, hswap]
  · rw [hSC]
    rw [hblk2, hswap]

theorem strictCounts_bounds (g : Rng) :
    ∀ ci < 9, 1 ≤ (strictCounts g).1.getD ci 0 ∧ (strictCounts g).1.getD ci 0 ≤ 3 := by
  obtain ⟨db, hdb, hlen, hblocks⟩ := strictCounts_spec g
  intro ci hci
  have hb : ci / 3 < 3 := by omega
  have hmem : (strictCounts g).1.getD ci 0 ∈ blockVals (strictCounts g).1 (ci / 3) := by
    have h3 : ci = 3 * (ci / 3) ∨ ci = 3 * (ci / 3) + 1 ∨ ci = 3 * (ci / 3) + 2 := by
      omega
    rcases h3 with h3 | h3 | h3 <;>
      · conv in (strictCounts g).1.getD ci 0 => rw [h3]
        simp [blockVals]
  have hsub := (List.perm_insertionSort (fun x y => x ≤ y)
    (blockVals (strictCounts g).1 (ci / 3))).symm.subset hmem
  rw [hblocks (ci / 3) hb] at hsub
  by_cases hd : ci / 3 = db
  · rw [if_pos hd] at hsub
    simp only [List.mem_cons, List.not_mem_nil, or_false] at hsub
    rcases hsub with h | h | h <;> omega
  · rw [if_neg hd] at hsub
    simp only [List.mem_cons, List.not_mem_nil, or_false] at hsub
    rcases hsub with h | h | h <;> omega

theorem blockVals_sum (g : Rng) : ∀ b < 3, (blockVals (strictCounts g).1 b).sum = 5 := by
  obtain ⟨db, hdb, hlen, hblocks⟩ := strictCounts_spec g
  intro b hb
  have hsum := (List.perm_insertionSort (fun x y => x ≤ y)
    (blockVals (strictCounts g).1 b)).symm.sum_eq
  rw [hblocks b hb] at hsum
  by_cases hd : b = db
  · rw [if_pos hd] at hsum
    simpa using hsum
  · rw [if_neg hd] at hsum
    simpa using hsum

theorem strictCounts_sum (g : Rng) :
    ((List.range 9).map fun ci => (strictCounts g).1.getD ci 0).sum = 15 := by
  have h0 : (strictCounts g).1.getD 0 0 + (strictCounts g).1.getD 1 0 +
      (strictCounts g).1.getD 2 0 = 5 := by
    have h := blockVals_sum g 0 (by omega)
    simp [blockVals] at h ⊢
    omega
  have h1 : (strictCounts g).1.getD 3 0 + (strictCounts g).1.getD 4 0 +
      (strictCounts g).1.getD 5 0 = 5 := by
    have h := blockVals_sum g 1 (by omega)
    simp [blockVals] at h ⊢
    omega
  have h2 : (strictCounts g).1.getD 6 0 + (strictCounts g).1.getD 7 0 +
      (strictCounts g).1.getD 8 0 = 5 := by
    have h := blockVals_sum g 2 (by omega)
    simp [blockVals] at h ⊢
    omega
  have hr : List.range 9 = [0, 1, 2, 3, 4, 5, 6, 7, 8] := by decide
  rw [hr]
  simp only [List.map_cons, List.map_nil, List.sum_cons, List.sum_nil]
  omega

/-! ### Ticket cells and pool draws -/

/-- Structural well-formedness of a ticket: 3 rows of 9 entries. -/
def TShape (t : Ticket) : Prop := t.length = 3 ∧ ∀ row ∈ t, row.length = 9

theorem trow_length {t : Ticket} (ht : TShape t) {r : Nat} (hr : r < 3) :
    (t.getD r []).length = 9 := by
  have hlen : r < t.length := by rw [ht.1]; exact hr
  rw [List.getD_eq_getElem _ _ hlen]
  exact ht.2 _ (List.getElem_mem hlen)

theorem tcell_tset_self {t : Ticket} (ht : TShape t) {r c : Nat} (hr : r < 3) (hc : c < 9)
    (v : Nat) : tcell (tset t r c v) r c = v := by
  unfold tcell tset
  rw [getD_set_self _ _ _ (by rw [ht.1]; exact hr)]
  exact getD_set_self _ _ _ (by rw [trow_length ht hr]; exact hc)

theorem tcell_tset_ne {t : Ticket} (ht : TShape t) {r c : Nat} (hr : r < 3) (v : Nat)
    {r2 c2 : Nat} (h : r2 ≠ r ∨ c2 ≠ c) : tcell (tset t r c v) r2 c2 = tcell t r2 c2 := by
  unfold tcell tset
  rcases h with h | h
  · rw [getD_set_ne _ _ (fun e => h e.symm)]
  · by_cases hrr : r2 = r
    · subst hrr
      rw [getD_set_self _ _ _ (by rw [ht.1]; exact hr)]
      rw [List.getD_eq_getElem?_getD, List.getElem?_set_ne (fun e => h e.symm),
        ← List.getD_eq_getElem?_getD]
    · rw [getD_set_ne _ _ (fun e => hrr e.symm)]

theorem tshape_tset {t : Ticket} (ht : TShape t) {r c : Nat} (hr : r < 3) (v : Nat) :
    TShape (tset t r c v) := by
  refine ⟨by simp [tset, ht.1], ?_⟩
  intro row hrow
  rcases List.mem_or_eq_of_mem_set hrow with h | h
  · exact ht.2 row h
  · rw [h, List.length_set]
    exact trow_length ht hr

theorem length_eq_one {l : List Nat} (h : l.length = 1) : ∃ x, l = [x] := by
  match l, h with | [x], _ => exact ⟨x, rfl⟩

theorem length_eq_two {l : List Nat} (h : l.length = 2) : ∃ x y, l = [x, y] := by
  match l, h with | [x, y], _ => exact ⟨x, y, rfl⟩

theorem length_eq_three {l : List Nat} (h : l.length = 3) : ∃ x y z, l = [x, y, z] := by
  match l, h with | [x, y, z], _ => exact ⟨x, y, z, rfl⟩

theorem popK_spec : ∀ (k : Nat) (l : List Nat), k ≤ l.length → ∃ vs l2,
    popK k l = some (vs, l2) ∧ vs.length = k ∧ (∀ x ∈ vs, x ∈ l) ∧
    (l.Nodup → vs.Nodup) := by
  intro k
  induction k with
  | zero => exact fun l _ => ⟨[], l, rfl, rfl, by simp, fun _ => List.nodup_nil⟩
  | succ k ih =>
    intro l hk
    have hne : l ≠ [] := by
      intro h
      rw [h] at hk
      simp at hk
    obtain ⟨vs, l2, heq, hlen, hmem, hnd⟩ := ih l.dropLast (by
      rw [List.length_dropLast]
      omega)
    refine ⟨l.getLast hne :: vs, l2, ?_, by simp [hlen], ?_, ?_⟩
    · rw [popK, List.getLast?_eq_getLast l hne, heq]
    · intro x hx
      rcases List.mem_cons.mp hx with h | h
      · rw [h]
        exact List.getLast_mem hne
      · exact (List.dropLast_sublist l).subset (hmem x h)
    · intro hndl
      have hndd : l.dropLast.Nodup := (List.dropLast_sublist l).nodup hndl
      refine List.nodup_cons.mpr ⟨fun hmem2 => ?_, hnd hndd⟩
      have hx : l.getLast hne ∈ l.dropLast := hmem _ hmem2
      have hsplit : l.dropLast ++ [l.getLast hne] = l := List.dropLast_append_getLast hne
      have : ¬ (l.dropLast ++ [l.getLast hne]).Nodup := by
        intro hnd2
        have := List.disjoint_of_nodup_append hnd2
        exact absurd (by simp : l.getLast hne ∈ [l.getLast hne]) (this hx)
      rw [hsplit] at this
      exact this hndl

theorem sortedNums_spec (vs : List Nat) (hnd : vs.Nodup) :
    (vs.insertionSort (fun a b => a ≤ b)).Sorted (fun a b => a < b) ∧
    (vs.insertionSort (fun a b => a ≤ b)).length = vs.length ∧
    ∀ x ∈ vs.insertionSort (fun a b => a ≤ b), x ∈ vs := by
  have hperm := List.perm_insertionSort (fun a b => a ≤ b) vs
  have hsorted : (vs.insertionSort (fun a b => a ≤ b)).Sorted (fun a b => a ≤ b) := by
    haveI : IsTotal Nat (fun a b : Nat => a ≤ b) := ⟨fun a b => Nat.le_total _ _⟩
    haveI : IsTrans Nat (fun a b : Nat => a ≤ b) := ⟨fun a b c h1 h2 => le_trans h1 h2⟩
    exact List.sorted_insertionSort _ _
  exact ⟨hsorted.lt_of_le (hperm.nodup_iff.mpr hnd), hperm.length_eq,
    fun x hx => hperm.subset hx⟩

theorem getD_of_mem {l : List Nat} {x : Nat} (h : x ∈ l) :
    ∃ i, i < l.length ∧ l.getD i 0 = x := by
  obtain ⟨i, hi, he⟩ := List.mem_iff_getElem.mp h
  exact ⟨i, hi, by rw [List.getD_eq_getElem _ _ hi]; exact he⟩

theorem getD_mem {l : List Nat} {i : Nat} (h : i < l.length) : l.getD i 0 ∈ l := by
  rw [List.getD_eq_getElem _ _ h]
  exact List.getElem_mem h

theorem colsum_eq_countP {s : PS} (hs : Shape s) {ci : Nat} (hci : ci < 9) :
    colsum s ci = (List.range 3).countP fun r => decide (cell s r ci = 1) := by
  have hr3 : List.range 3 = [0, 1, 2] := by decide
  rcases hs.2.2.2 0 (by omega) ci hci with h0 | h0 <;>
    rcases hs.2.2.2 1 (by omega) ci hci with h1 | h1 <;>
    rcases hs.2.2.2 2 (by omega) ci hci with h2 | h2 <;>
    · unfold colsum
      rw [hr3]
      simp [List.countP_cons, h0, h1, h2]

theorem fillAssign_spec {ci : Nat} (hci : ci < 9) :
    ∀ (ridx nums : List Nat) (t : Ticket), TShape t →
      ridx.length = nums.length → (∀ r ∈ ridx, r < 3) →
      ridx.Sorted (fun a b => a < b) →
      TShape ((ridx.zip nums).foldl (fun t2 p => tset t2 p.1 ci p.2) t) ∧
      (∀ r2 c2, c2 ≠ ci →
        tcell ((ridx.zip nums).foldl (fun t2 p => tset t2 p.1 ci p.2) t) r2 c2 =
          tcell t r2 c2) ∧
      (∀ r2, r2 ∉ ridx →
        tcell ((ridx.zip nums).foldl (fun t2 p => tset t2 p.1 ci p.2) t) r2 ci =
          tcell t r2 ci) ∧
      (∀ i, i < ridx.length →
        tcell ((ridx.zip nums).foldl (fun t2 p => tset t2 p.1 ci p.2) t)
          (ridx.getD i 0) ci = nums.getD i 0) := by
  intro ridx
  induction ridx with
  | nil =>
    intro nums t ht _ _ _
    exact ⟨ht, fun r2 c2 _ => rfl, fun r2 _ => rfl, fun i hi => by simp at hi⟩
  | cons r rest ih =>
    intro nums t ht hlen hbnd hsort
    obtain ⟨n, ns, rfl⟩ : ∃ n ns, nums = n :: ns := by
      match nums, hlen with | n :: ns, _ => exact ⟨n, ns, rfl⟩
    have hr3 : r < 3 := hbnd r (by simp)
    have hrest : ∀ x ∈ rest, r < x := (List.sorted_cons.mp hsort).1
    have hsort2 : rest.Sorted (fun a b => a < b) := (List.sorted_cons.mp hsort).2
    have hnotmem : r ∉ rest := fun h => lt_irrefl r (hrest r h)
    have ht2 : TShape (tset t r ci n) := tshape_tset ht hr3 n
    obtain ⟨ihT, ihU, ihN, ihI⟩ := ih ns (tset t r ci n) ht2 (by simpa using hlen)
      (fun x h => hbnd x (by simp [h])) hsort2
    have hfold : ((r :: rest).zip (n :: ns)).foldl (fun t2 p => tset t2 p.1 ci p.2) t =
        (rest.zip ns).foldl (fun t2 p => tset t2 p.1 ci p.2) (tset t r ci n) := rfl
    rw [hfold]
    refine ⟨ihT, ?_, ?_, ?_⟩
    · intro r2 c2 hc2
      rw [ihU r2 c2 hc2, tcell_tset_ne ht hr3 n (Or.inr hc2)]
    · intro r2 hr2
      have hr2r : r2 ≠ r := fun h => hr2 (by simp [h])
      have hr2rest : r2 ∉ rest := fun h => hr2 (by simp [h])
      rw [ihN r2 hr2rest, tcell_tset_ne ht hr3 n (Or.inl hr2r)]
    · intro i hi
      cases i with
      | zero =>
        simp only [List.getD_cons_zero]
        rw [ihN r hnotmem, tcell_tset_self ht hr3 hci n]
      | succ i =>
        simp only [List.getD_cons_succ]
        exact ihI i (by simpa using hi)

theorem fillColumn_spec {s : PS} (hs : Shape s) {t : Ticket} (ht : TShape t)
    {ci : Nat} (hci : ci < 9) {nums : List Nat}
    (hlen : nums.length = colsum s ci)
    (hsorted : nums.Sorted (fun a b => a < b)) :
    TShape (fillColumn s t ci nums) ∧
    (∀ r2 c2, c2 ≠ ci → tcell (fillColumn s t ci nums) r2 c2 = tcell t r2 c2) ∧
    (∀ r < 3, cell s r ci = 0 → tcell (fillColumn s t ci nums) r ci = tcell t r ci) ∧
    (∀ r < 3, cell s r ci = 1 → tcell (fillColumn s t ci nums) r ci ∈ nums) ∧
    (∀ r < 3, ∀ r2 < 3, r < r2 → cell s r ci = 1 → cell s r2 ci = 1 →
      tcell (fillColumn s t ci nums) r ci < tcell (fillColumn s t ci nums) r2 ci) := by
  have hfperm := List.perm_insertionSort (fun a b : Nat => a ≤ b)
    ((List.range 3).filter fun r => decide (cell s r ci = 1))
  have hfnd : (((List.range 3).filter fun r => decide (cell s r ci = 1)).insertionSort
      (fun a b : Nat => a ≤ b)).Nodup :=
    hfperm.nodup_iff.mpr ((List.nodup_range 3).filter _)
  have hfsortedle : (((List.range 3).filter fun r => decide (cell s r ci = 1)).insertionSort
      (fun a b : Nat => a ≤ b)).Sorted (fun a b : Nat => a ≤ b) := by
    haveI : IsTotal Nat (fun a b : Nat => a ≤ b) := ⟨fun a b => Nat.le_total _ _⟩
    haveI : IsTrans Nat (fun a b : Nat => a ≤ b) := ⟨fun a b c h1 h2 => le_trans h1 h2⟩
    exact List.sorted_insertionSort _ _
  have hfsorted := hfsortedle.lt_of_le hfnd
  have hfmem : ∀ r, (r ∈ ((List.range 3).filter fun r => decide (cell s r ci = 1)).insertionSort
      (fun a b : Nat => a ≤ b)) ↔ (r < 3 ∧ cell s r ci = 1) := by
    intro r
    rw [hfperm.mem_iff, List.mem_filter, List.mem_range]
    simp
  have hflen : (((List.range 3).filter fun r => decide (cell s r ci = 1)).insertionSort
      (fun a b : Nat => a ≤ b)).length = nums.length := by
    rw [hfperm.length_eq, ← List.countP_eq_length_filter, hlen, colsum_eq_countP hs hci]
  obtain ⟨hT, hU, hN, hI⟩ := fillAssign_spec hci
    (((List.range 3).filter fun r => decide (cell s r ci = 1)).insertionSort
      (fun a b : Nat => a ≤ b)) nums t ht hflen (fun r h => ((hfmem r).mp h).1) hfsorted
  have hres : fillColumn s t ci nums =
      ((((List.range 3).filter fun r => decide (cell s r ci = 1)).insertionSort
        (fun a b : Nat => a ≤ b)).zip nums).foldl (fun t2 p => tset t2 p.1 ci p.2) t := rfl
  rw [hres]
  refine ⟨hT, hU, ?_, ?_, ?_⟩
  · intro r hr h0
    refine hN r (fun hmem => ?_)
    have := ((hfmem r).mp hmem).2
    rw [h0] at this
    exact absurd this (by decide)
  · intro r hr h1
    obtain ⟨i, hilt, hig⟩ := getD_of_mem ((hfmem r).mpr ⟨hr, h1⟩)
    rw [← hig]
    rw [hI i hilt]
    have hin : i < nums.length := by rw [← hflen]; exact hilt
    exact getD_mem hin
  · intro r hr r2 hr2 hlt h1 h2
    obtain ⟨i, hilt, hig⟩ := getD_of_mem ((hfmem r).mpr ⟨hr, h1⟩)
    obtain ⟨j, hjlt, hjg⟩ := getD_of_mem ((hfmem r2).mpr ⟨hr2, h2⟩)
    have hij : i < j := by
      by_contra hji
      have hji2 : j ≤ i := by omega
      rcases Nat.lt_or_ge j i with hji3 | hji3
      · have := List.pairwise_iff_get.mp hfsorted ⟨j, hjlt⟩ ⟨i, hilt⟩ hji3
        rw [List.get_eq_getElem, List.get_eq_getElem, ← List.getD_eq_getElem _ 0,
          ← List.getD_eq_getElem _ 0, hig, hjg] at this
        omega
      · have hij2 : i = j := by omega
        rw [hij2, hjg] at hig
        omega
    rw [← hig, ← hjg, hI i hilt, hI j hjlt]
    have hjn : j < nums.length := by rw [← hflen]; exact hjlt
    have hin : i < nums.length := by rw [← hflen]; exact hilt
    have := List.pairwise_iff_get.mp hsorted ⟨i, hin⟩ ⟨j, hjn⟩ hij
    rw [List.get_eq_getElem, List.get_eq_getElem, ← List.getD_eq_getElem _ 0,
      ← List.getD_eq_getElem _ 0] at this
    exact this

theorem colsum_le_three {s : PS} (hs : Shape s) {ci : Nat} (hci : ci < 9) :
    colsum s ci ≤ 3 := by
  rcases hs.2.2.2 0 (by omega) ci hci with h0 | h0 <;>
    rcases hs.2.2.2 1 (by omega) ci hci with h1 | h1 <;>
    rcases hs.2.2.2 2 (by omega) ci hci with h2 | h2 <;>
    · unfold colsum
      omega

/-- The per-column value facts of a filled ticket: occupied cells hold a
value of the column's original pool, free cells hold 0, and values grow
strictly down the column. -/
def ColProp (s : PS) (cols0 : List (List Nat)) (t : Ticket) (c : Nat) : Prop :=
  (∀ r < 3, (cell s r c = 1 → tcell t r c ∈ cols0.getD c []) ∧
    (cell s r c = 0 → tcell t r c = 0)) ∧
  ∀ r < 3, ∀ r2 < 3, r < r2 → cell s r c = 1 → cell s r2 c = 1 →
    tcell t r c < tcell t r2 c

theorem fillGo_sound {kof : Nat → Nat} {s : PS} {cols0 : List (List Nat)}
    (hs : Shape s)
    (hpool : ∀ c < 9, (cols0.getD c []).Nodup ∧ 9 ≤ (cols0.getD c []).length)
    (hcount : ∀ c < 9, kof c = colsum s c) :
    ∀ (cs : List Nat) (t : Ticket) (cols : List (List Nat)),
      cs.Nodup → (∀ c ∈ cs, c < 9) → TShape t →
      (∀ c ∈ cs, cols.getD c [] = cols0.getD c []) →
      (∀ c ∈ cs, ∀ r < 3, tcell t r c = 0) →
      (∀ c < 9, c ∉ cs → ColProp s cols0 t c) →
      ∃ t2, fillGo kof s cs t cols = some t2 ∧ TShape t2 ∧
        ∀ c < 9, ColProp s cols0 t2 c := by
  intro cs
  induction cs with
  | nil =>
    intro t cols _ _ ht _ _ hdone
    exact ⟨t, rfl, ht, fun c hc => hdone c hc (by simp)⟩
  | cons ci rest ih =>
    intro t cols hnd hbdd ht hpools hzero hdone
    have hci : ci < 9 := hbdd ci (by simp)
    have hcinot : ci ∉ rest := (List.nodup_cons.mp hnd).1
    have hkle : kof ci ≤ (cols.getD ci []).length := by
      rw [hpools ci (by simp), hcount ci hci]
      have h9 := (hpool ci hci).2
      have h3 := colsum_le_three hs hci
      omega
    obtain ⟨vs, l2, hpop, hvslen, hvsmem, hvsnd⟩ := popK_spec (kof ci) (cols.getD ci []) hkle
    have hvsnd2 : vs.Nodup := hvsnd (by rw [hpools ci (by simp)]; exact (hpool ci hci).1)
    obtain ⟨hsorted, hslen, hsmem⟩ := sortedNums_spec vs hvsnd2
    have hnumlen : (vs.insertionSort fun a b => a ≤ b).length = colsum s ci := by
      rw [hslen, hvslen, hcount ci hci]
    obtain ⟨hT, hU, h0, h1, hord⟩ := fillColumn_spec hs ht hci hnumlen hsorted
    have hnew : ∀ c < 9, c ∉ rest →
        ColProp s cols0 (fillColumn s t ci (vs.insertionSort fun a b => a ≤ b)) c := by
      intro c hc hnot
      by_cases hcc : c = ci
      · subst hcc
        refine ⟨fun r hr => ⟨fun hcell => ?_, fun hcell => ?_⟩, hord⟩
        · have hmem := h1 r hr hcell
          rw [← hpools c (by simp)]
          exact hvsmem _ (hsmem _ hmem)
        · rw [h0 r hr hcell]
          exact hzero c (by simp) r hr
      · have hold := hdone c hc (by simp [hcc, hnot])
        refine ⟨fun r hr => ⟨fun hcell => ?_, fun hcell => ?_⟩, fun r hr r2 hr2 hlt hc1 hc2 => ?_⟩
        · rw [hU r c hcc]
          exact ((hold.1 r hr).1) hcell
        · rw [hU r c hcc]
          exact ((hold.1 r hr).2) hcell
        · rw [hU r c hcc, hU r2 c hcc]
          exact hold.2 r hr r2 hr2 hlt hc1 hc2
    obtain ⟨t2, heq2, hT2, hP2⟩ := ih (fillColumn s t ci (vs.insertionSort fun a b => a ≤ b))
      (cols.set ci l2) (List.nodup_cons.mp hnd).2 (fun c h => hbdd c (by simp [h])) hT
      (fun c hc => by
        rw [getD_set_ne _ _ (by intro e; subst e; exact hcinot hc)]
        exact hpools c (by simp [hc]))
      (fun c hc r hr => by
        rw [hU r c (by intro e; subst e; exact hcinot hc)]
        exact hzero c (by simp [hc]) r hr)
      hnew
    refine ⟨t2, ?_, hT2, hP2⟩
    simp only [fillGo, hpop]
    exact heq2

theorem fillTicket_sound {kof : Nat → Nat} {s : PS} {cols0 : List (List Nat)}
    (hs : Shape s)
    (hpool : ∀ c < 9, (cols0.getD c []).Nodup ∧ 9 ≤ (cols0.getD c []).length)
    (hcount : ∀ c < 9, kof c = colsum s c) :
    ∃ t2, fillTicket kof s cols0 = some t2 ∧ TShape t2 ∧
      ∀ c < 9, ColProp s cols0 t2 c := by
  refine fillGo_sound hs hpool hcount (List.range 9)
    (List.replicate 3 (List.replicate 9 0)) cols0 (List.nodup_range 9)
    (fun c h => List.mem_range.mp h)
    ⟨rfl, fun row hrow => by rw [(List.mem_replicate.mp hrow).2]; rfl⟩
    (fun c _ => rfl) (fun c _ r _ => cell_init r c)
    (fun c hc hnot => absurd (List.mem_range.mpr hc) hnot)

theorem colLo_pos : ∀ c < 9, 1 ≤ colLo c := by decide

theorem colRange_disjoint : ∀ c < 9, ∀ c2 < 9, c < c2 → colHi c < colLo c2 := by decide

theorem sum_bits_eq_countP (f : Nat → Nat) (l : List Nat)
    (hb : ∀ x ∈ l, f x = 0 ∨ f x = 1) :
    (l.map f).sum = l.countP fun x => decide (f x = 1) := by
  induction l with
  | nil => rfl
  | cons x xs ih =>
    rw [List.map_cons, List.sum_cons, List.countP_cons,
      ih (fun y hy => hb y (by simp [hy]))]
    rcases hb x (by simp) with h | h <;> simp [h] <;> omega

/-- All the ticket-level facts the claims need, for a ticket filled from
a state whose rows are all at tally 5 and from well-formed pools. -/
theorem ticket_props {kof : Nat → Nat} {s : PS} {cols0 : List (List Nat)}
    (hs : Shape s) (hus : UsedSpec s) (hrow5 : ∀ r < 3, uval s r = 5)
    (hpools : validPools cols0)
    (hcount : ∀ c < 9, kof c = colsum s c) :
    ∃ t2, fillTicket kof s cols0 = some t2 ∧ TShape t2 ∧
      (∀ r < 3, rowNZ t2 r = 5) ∧
      (∀ c < 9, colNZ t2 c = colsum s c) ∧
      (∀ r < 3, ∀ c < 9, tcell t2 r c ≠ 0 →
        colLo c ≤ tcell t2 r c ∧ tcell t2 r c ≤ colHi c) ∧
      (∀ c < 9, ∀ r < 3, ∀ r2 < 3, r < r2 → tcell t2 r c ≠ 0 → tcell t2 r2 c ≠ 0 →
        tcell t2 r c < tcell t2 r2 c) ∧
      (∀ r < 3, ∀ c < 9, ∀ r2 < 3, ∀ c2 < 9, (r, c) ≠ (r2, c2) →
        tcell t2 r c ≠ 0 → tcell t2 r2 c2 ≠ 0 → tcell t2 r c ≠ tcell t2 r2 c2) ∧
      totalNZ t2 = 15 := by
  have hpool2 : ∀ c < 9, (cols0.getD c []).Nodup ∧ 9 ≤ (cols0.getD c []).length :=
    fun c hc => ⟨(hpools.2 c hc).1, (hpools.2 c hc).2.1⟩
  obtain ⟨t2, heq, hT, hP⟩ := fillTicket_sound hs hpool2 hcount
  have hiff : ∀ r < 3, ∀ c < 9, (tcell t2 r c ≠ 0 ↔ cell s r c = 1) := by
    intro r hr c hc
    constructor
    · intro hnz
      rcases hs.2.2.2 r hr c hc with h | h
      · exact absurd (((hP c hc).1 r hr).2 h) hnz
      · exact h
    · intro h1
      have hmem := ((hP c hc).1 r hr).1 h1
      have hlo := ((hpools.2 c hc).2.2 _ hmem).1
      have := colLo_pos c hc
      omega
  have hrange : ∀ r < 3, ∀ c < 9, tcell t2 r c ≠ 0 →
      colLo c ≤ tcell t2 r c ∧ tcell t2 r c ≤ colHi c := by
    intro r hr c hc hnz
    exact (hpools.2 c hc).2.2 _ (((hP c hc).1 r hr).1 ((hiff r hr c hc).mp hnz))
  have hord : ∀ c < 9, ∀ r < 3, ∀ r2 < 3, r < r2 → tcell t2 r c ≠ 0 →
      tcell t2 r2 c ≠ 0 → tcell t2 r c < tcell t2 r2 c := by
    intro c hc r hr r2 hr2 hlt h1 h2
    exact (hP c hc).2 r hr r2 hr2 hlt ((hiff r hr c hc).mp h1) ((hiff r2 hr2 c hc).mp h2)
  have hrowNZ : ∀ r < 3, rowNZ t2 r = 5 := by
    intro r hr
    unfold rowNZ
    rw [countP_eq_range, trow_length hT hr]
    have hcong : ((List.range 9).countP fun i => decide ((t2.getD r []).getD i 0 ≠ 0)) =
        (List.range 9).countP fun c => decide (cell s r c = 1) := by
      apply List.countP_congr
      intro c hc
      simp only [decide_eq_true_eq]
      exact hiff r hr c (List.mem_range.mp hc)
    rw [hcong, ← hus r hr]
    exact hrow5 r hr
  have hcolNZ : ∀ c < 9, colNZ t2 c = colsum s c := by
    intro c hc
    unfold colNZ
    have hcong : ((List.range 3).countP fun r => decide (tcell t2 r c ≠ 0)) =
        (List.range 3).countP fun r => decide (cell s r c = 1) := by
      apply List.countP_congr
      intro r hr
      simp only [decide_eq_true_eq]
      exact hiff r (List.mem_range.mp hr) c hc
    rw [hcong, ← colsum_eq_countP hs hc]
  have hdist : ∀ r < 3, ∀ c < 9, ∀ r2 < 3, ∀ c2 < 9, (r, c) ≠ (r2, c2) →
      tcell t2 r c ≠ 0 → tcell t2 r2 c2 ≠ 0 → tcell t2 r c ≠ tcell t2 r2 c2 := by
    intro r hr c hc r2 hr2 c2 hc2 hne h1 h2
    by_cases hcc : c = c2
    · subst hcc
      have hrr : r ≠ r2 := by
        intro h
        exact hne (by rw [h])
      rcases Nat.lt_or_ge r r2 with h | h
      · exact Nat.ne_of_lt (hord c hc r hr r2 hr2 h h1 h2)
      · have hlt : r2 < r := by omega
        exact (Nat.ne_of_lt (hord c hc r2 hr2 r hr hlt h2 h1)).symm
    · rcases Nat.lt_or_ge c c2 with h | h
      · have hhi := (hrange r hr c hc h1).2
        have hlo := (hrange r2 hr2 c2 hc2 h2).1
        have := colRange_disjoint c hc c2 hc2 h
        omega
      · have hlt : c2 < c := by omega
        have hhi := (hrange r2 hr2 c2 hc2 h2).2
        have hlo := (hrange r hr c hc h1).1
        have := colRange_disjoint c2 hc2 c hc hlt
        omega
  have hrowsum : ∀ r < 3, ((List.range 9).map fun c => cell s r c).sum = 5 := by
    intro r hr
    rw [sum_bits_eq_countP _ _ (fun c hcm => hs.2.2.2 r hr c (List.mem_range.mp hcm)),
      ← hus r hr]
    exact hrow5 r hr
  have htotal : totalNZ t2 = 15 := by
    unfold totalNZ
    have hmapc : ((List.range 9).map fun c => colNZ t2 c) =
        (List.range 9).map fun c => colsum s c :=
      List.map_congr_left (fun c hcm => hcolNZ c (List.mem_range.mp hcm))
    rw [hmapc]
    have h0 := hrowsum 0 (by omega)
    have h1 := hrowsum 1 (by omega)
    have h2 := hrowsum 2 (by omega)
    have hr9 : List.range 9 = [0, 1, 2, 3, 4, 5, 6, 7, 8] := by decide
    rw [hr9] at h0 h1 h2 ⊢
    simp only [List.map_cons, List.map_nil, List.sum_cons, List.sum_nil] at h0 h1 h2 ⊢
    unfold colsum
    omega
  exact ⟨t2, heq, hT, hrowNZ, hcolNZ, hrange, hord, hdist, htotal⟩

/-! ### The strict generator always succeeds, with all invariants -/

theorem generate_ticket_strict_sound (g : Rng) (fuel : Nat) :
    ∃ t g2, generate_ticket_strict g fuel = (some t, g2) ∧ TShape t ∧
      (∀ r < 3, rowNZ t r = 5) ∧
      (∀ c < 9, 1 ≤ colNZ t c ∧ colNZ t c ≤ 3) ∧
      (∀ r < 3, ∀ c < 9, tcell t r c ≠ 0 →
        colLo c ≤ tcell t r c ∧ tcell t r c ≤ colHi c) ∧
      (∀ c < 9, ∀ r < 3, ∀ r2 < 3, r < r2 → tcell t r c ≠ 0 → tcell t r2 c ≠ 0 →
        tcell t r c < tcell t r2 c) ∧
      (∀ r < 3, ∀ c < 9, ∀ r2 < 3, ∀ c2 < 9, (r, c) ≠ (r2, c2) →
        tcell t r c ≠ 0 → tcell t r2 c2 ≠ 0 → tcell t r c ≠ tcell t r2 c2) ∧
      totalNZ t = 15 ∧
      (∃ db < 3, ∀ b < 3, (blockNZ t b).insertionSort (fun x y => x ≤ y) =
        (if b = db then [1, 2, 2] else [1, 1, 3])) := by
  obtain ⟨s2, g3, hloop, hval, hsh, hus⟩ :=
    attemptLoop_sound ((strictCounts (shuffleEach colRanges g).2).2)
      (show (0 : Nat) < 40 by omega)
      (strictCounts_sum (shuffleEach colRanges g).2)
      (strictCounts_bounds (shuffleEach colRanges g).2)
  have hrow5 : ∀ r < 3, uval s2 r = 5 := by
    intro r hr
    unfold uval
    rw [hval.1]
    have hr3 : r = 0 ∨ r = 1 ∨ r = 2 := by omega
    rcases hr3 with rfl | rfl | rfl <;> rfl
  have hcount : ∀ c < 9, (strictCounts (shuffleEach colRanges g).2).1.getD c 0 =
      colsum s2 c := fun c hc => (hval.2 c hc).symm
  obtain ⟨t2, hfill, hT, hrowNZ, hcolNZ, hrange2, hord2, hdist2, htot2⟩ :=
    ticket_props hsh hus hrow5 (validPools_shuffleEach g) hcount
  obtain ⟨db, hdb, hlen9, hblocks⟩ := strictCounts_spec (shuffleEach colRanges g).2
  refine ⟨t2, g3, ?_, hT, hrowNZ, ?_, hrange2, hord2, hdist2, htot2, ?_⟩
  · unfold generate_ticket_strict
    rw [hloop]
    simp only [afterAttempt, hfill]
  · intro c hc
    rw [hcolNZ c hc, hval.2 c hc]
    exact strictCounts_bounds _ c hc
  · refine ⟨db, hdb, fun b hb => ?_⟩
    have hbv : blockNZ t2 b = blockVals (strictCounts (shuffleEach colRanges g).2).1 b := by
      unfold blockNZ blockVals
      rw [hcolNZ _ (by omega), hcolNZ _ (by omega), hcolNZ _ (by omega),
        hval.2 _ (by omega), hval.2 _ (by omega), hval.2 _ (by omega)]
    rw [hbv]
    exact hblocks b hb

theorem genMany_sound (P : Ticket → Prop)
    (hP : ∀ (g : Rng) (fuel : Nat), ∃ t g2, generate_ticket_strict g fuel = (some t, g2) ∧ P t) :
    ∀ (k : Nat) (g : Rng) (fuel : Nat), ∃ ts g2, genMany k g fuel = (some ts, g2) ∧
      ts.length = k ∧ ∀ t ∈ ts, P t := by
  intro k
  induction k with
  | zero => exact fun g fuel => ⟨[], g, rfl, rfl, by simp⟩
  | succ k ih =>
    intro g fuel
    obtain ⟨t, g2, heq, hPt⟩ := hP g fuel
    obtain ⟨ts, g3, heq2, hlen, hall⟩ := ih g2 fuel
    refine ⟨t :: ts, g3, ?_, by simp [hlen], ?_⟩
    · show genStep (fun g1 => genMany k g1 fuel) (generate_ticket_strict g fuel) =
        (some (t :: ts), g3)
      rw [heq]
      simp only [genStep]
      rw [heq2]
    · intro t2 ht2
      rcases List.mem_cons.mp ht2 with h | h
      · rw [h]
        exact hPt
      · exact hall _ h

theorem api_tickets_sound (P : Ticket → Prop)
    (hP : ∀ (g : Rng) (fuel : Nat), ∃ t g2, generate_ticket_strict g fuel = (some t, g2) ∧ P t)
    (count : Int) (g : Rng) (fuel : Nat) :
    ∃ ts g2, api_tickets count g fuel = (some ts, g2) ∧
      ts.length = (max 1 (min count 60)).toNat * 6 ∧ ∀ t ∈ ts, P t :=
  genMany_sound P hP ((max 1 (min count 60)).toNat * 6) g fuel

/-! ### The fallback generator -/

theorem sum_eq_range (l : List Nat) :
    ((List.range l.length).map fun i => l.getD i 0).sum = l.sum := by
  induction l with
  | nil => rfl
  | cons x xs ih =>
    rw [List.length_cons, List.range_succ_eq_map, List.map_cons, List.sum_cons,
      List.map_map, List.sum_cons]
    have hcomp : ((fun i => (x :: xs).getD i 0) ∘ Nat.succ) = fun i => xs.getD i 0 := rfl
    rw [hcomp, ih]
    simp

theorem sum_set (l : List Nat) : ∀ (i v : Nat), i < l.length →
    (l.set i v).sum + l.getD i 0 = l.sum + v := by
  induction l with
  | nil => intro i v h; simp at h
  | cons x xs ih =>
    intro i v h
    cases i with
    | zero => simp [List.sum_cons]; omega
    | succ i =>
      have := ih i v (by simpa using h)
      simp only [List.set_cons_succ, List.sum_cons, List.getD_cons_succ]
      omega

theorem fallbackCountsGo_spec : ∀ (fuel : Nat) (counts : List Nat) (extras : Nat) (g : Rng),
    counts.length = 9 → (∀ ci < 9, 1 ≤ counts.getD ci 0 ∧ counts.getD ci 0 ≤ 3) →
    counts.sum + extras = 15 →
    ∀ res, fallbackCountsGo fuel counts extras g = some res →
      res.1.length = 9 ∧ (∀ ci < 9, 1 ≤ res.1.getD ci 0 ∧ res.1.getD ci 0 ≤ 3) ∧
      res.1.sum = 15 := by
  intro fuel
  induction fuel with
  | zero => intro counts extras g _ _ _ res h; exact absurd h (by simp [fallbackCountsGo])
  | succ fuel ih =>
    intro counts extras g hlen hbnd hsum res h
    rw [fallbackCountsGo] at h
    by_cases hex : extras = 0
    · rw [if_pos hex] at h
      have hres : res = (counts, g) := by
        injection h with h2
        exact h2.symm
      rw [hres]
      refine ⟨hlen, hbnd, ?_⟩
      show counts.sum = 15
      omega
    · rw [if_neg hex] at h
      have hi : (g.next 9).1 < 9 := Nat.mod_lt _ (by omega)
      by_cases hlt : counts.getD (g.next 9).1 0 < 3
      · rw [if_pos hlt] at h
        refine ih _ _ _ (by simp [hlen]) ?_ ?_ res h
        · intro ci hci
          by_cases hcc : ci = (g.next 9).1
          · subst hcc
            rw [getD_set_self counts (g.next 9).1 _ (by omega)]
            have := (hbnd _ hci).1
            omega
          · rw [getD_set_ne _ _ (fun e => hcc e.symm)]
            exact hbnd ci hci
        · have hset := sum_set counts (g.next 9).1 (counts.getD (g.next 9).1 0 + 1)
            (by omega)
          have hb := (hbnd _ hi).1
          omega
      · rw [if_neg hlt] at h
        exact ih _ _ _ hlen hbnd hsum res h

theorem foldl_guard {β : Type} (f : β → Nat → β) (p : Nat → Prop) [DecidablePred p] :
    ∀ (l : List Nat) (s : β),
      l.foldl (fun s2 ci => if p ci then f s2 ci else s2) s =
        (l.filter fun ci => decide (p ci)).foldl f s := by
  intro l
  induction l with
  | nil => intro s; rfl
  | cons x xs ih =>
    intro s
    by_cases h : p x
    · rw [List.foldl_cons, if_pos h, List.filter_cons, if_pos (by simpa using h)]
      exact ih _
    · rw [List.foldl_cons, if_neg h, List.filter_cons, if_neg (by simpa using h)]
      exact ih _

theorem filter123_perm (counts : List Nat)
    (hbnd : ∀ ci < 9, 1 ≤ counts.getD ci 0 ∧ counts.getD ci 0 ≤ 3) :
    (((List.range 9).filter fun ci => decide (counts.getD ci 0 = 3)) ++
      (((List.range 9).filter fun ci => decide (counts.getD ci 0 = 2)) ++
       ((List.range 9).filter fun ci => decide (counts.getD ci 0 = 1)))).Perm
      (List.range 9) := by
  have h1 := List.filter_append_perm (fun ci => decide (counts.getD ci 0 = 3)) (List.range 9)
  have h2 := List.filter_append_perm (fun ci => decide (counts.getD ci 0 = 2))
    ((List.range 9).filter fun ci => !decide (counts.getD ci 0 = 3))
  have e2 : ((List.range 9).filter fun ci => !decide (counts.getD ci 0 = 3)).filter
      (fun ci => decide (counts.getD ci 0 = 2)) =
      (List.range 9).filter fun ci => decide (counts.getD ci 0 = 2) := by
    rw [List.filter_filter]
    apply List.filter_congr
    intro x _
    by_cases h : counts.getD x 0 = 3 <;> simp [h] <;> omega
  have e1 : ((List.range 9).filter fun ci => !decide (counts.getD ci 0 = 3)).filter
      (fun ci => !decide (counts.getD ci 0 = 2)) =
      (List.range 9).filter fun ci => decide (counts.getD ci 0 = 1) := by
    rw [List.filter_filter]
    apply List.filter_congr
    intro x hx
    have hb := hbnd x (List.mem_range.mp hx)
    have h3 : counts.getD x 0 = 1 ∨ counts.getD x 0 = 2 ∨ counts.getD x 0 = 3 := by omega
    rcases h3 with h | h | h <;> rw [List.getD_eq_getElem?_getD] at h <;> simp [h]
  rw [e2, e1] at h2
  exact (List.Perm.append_left _ h2).trans h1

theorem fbPlace1_eval {s : PS} {ci a : Nat} (bs : List Nat) (hua : uval s a < 5) :
    fbPlace1 ci (a :: bs) s = mark s a ci := by
  rw [fbPlace1, if_pos hua]

theorem fbPlace2_eval {s : PS} {ci a b : Nat} (cs : List Nat) (hs : Shape s)
    (ha : a < 3) (hb : b < 3) (hci : ci < 9) (hab : a ≠ b)
    (hca : cell s a ci = 0) (hcb : cell s b ci = 0)
    (hcol : colsum s ci = 0) (hua : uval s a < 5) (hub : uval s b < 5) :
    fbPlace2 ci (a :: b :: cs) s = mark (mark s a ci) b ci := by
  have hs1 : Shape (mark s a ci) := shape_mark hs ha hci
  have hcol1 : colsum (mark s a ci) ci = 1 := by
    rw [colsum_mark_self hs ha hci hca, hcol]
  have hcb1 : cell (mark s a ci) b ci = 0 := by
    rw [cell_mark_ne hs ha (Or.inl (Ne.symm hab))]
    exact hcb
  have hub1 : uval (mark s a ci) b < 5 := by
    rw [uval_mark_ne _ _ (Ne.symm hab)]
    exact hub
  have hcol2 : colsum (mark (mark s a ci) b ci) ci = 2 := by
    rw [colsum_mark_self hs1 hb hci hcb1, hcol1]
  rw [fbPlace2, if_pos hua, if_neg (by omega), fbPlace2, if_pos hub1, if_pos hcol2]

theorem fbTwoStep_sound {counts : List Nat} {ci : Nat} {rest : List Nat} {s : PS} (g : Rng)
    (hI : Inv counts (ci :: rest) s) (h2 : counts.getD ci 0 = 2) :
    Inv counts rest (fbPlace2 ci (rowOrder s.used g).1 s) := by
  have hci : ci < 9 := hI.bdd ci (by simp)
  have hbase : ∀ r < 3, cell s r ci = 0 := hI.fresh ci (by simp)
  have hcol0 : colsum s ci = 0 := colsum_of_fresh hbase
  have htot := hI.total
  rw [List.map_cons, List.sum_cons] at htot
  obtain ⟨a, b, c, hord, ha, hb, hc, hab, hac, hbc, hsab, hsbc⟩ := rowOrder_spec s.used g
  have husab : uval s a ≤ uval s b := hsab
  have husbc : uval s b ≤ uval s c := hsbc
  have hsum3 : uval s a + uval s b + uval s c = uval s 0 + uval s 1 + uval s 2 :=
    sum3_reindex (uval s) ha hb hc hab hac hbc
  have hspba := hI.spread b hb a ha
  have hub : uval s b < 5 := by omega
  have hua : uval s a < 5 := by omega
  rw [hord, fbPlace2_eval [c] hI.shape ha hb hci hab (hbase a ha) (hbase b hb) hcol0 hua hub]
  exact inv_after_two hI h2 ha hb hc hab hac hbc husab husbc

theorem fbOneStep_sound {counts : List Nat} {ci : Nat} {rest : List Nat} {s : PS} (g : Rng)
    (hI : Inv counts (ci :: rest) s) (h1 : counts.getD ci 0 = 1) :
    Inv counts rest (fbPlace1 ci (rowOrder s.used g).1 s) := by
  have hci : ci < 9 := hI.bdd ci (by simp)
  have hbase : ∀ r < 3, cell s r ci = 0 := hI.fresh ci (by simp)
  have htot := hI.total
  rw [List.map_cons, List.sum_cons] at htot
  obtain ⟨a, b, c, hord, ha, hb, hc, hab, hac, hbc, hsab, hsbc⟩ := rowOrder_spec s.used g
  have husab : uval s a ≤ uval s b := hsab
  have husbc : uval s b ≤ uval s c := hsbc
  have hsum3 : uval s a + uval s b + uval s c = uval s 0 + uval s 1 + uval s 2 :=
    sum3_reindex (uval s) ha hb hc hab hac hbc
  have hamin : ∀ r < 3, uval s a ≤ uval s r := by
    intro r hr
    rcases mem3 ha hb hc hab hac hbc hr with rfl | rfl | rfl <;> omega
  have hua : uval s a < 5 := by
    have h0 := hamin 0 (by omega)
    have hh1 := hamin 1 (by omega)
    have hh2 := hamin 2 (by omega)
    omega
  rw [hord, fbPlace1_eval [b, c] hua]
  exact inv_after_one hI h1 ha hamin

theorem fbThrees_sound {counts : List Nat} : ∀ (cs rest : List Nat) (s : PS),
    (∀ ci ∈ cs, counts.getD ci 0 = 3) → Inv counts (cs ++ rest) s →
    Inv counts rest
      (cs.foldl (fun s2 ci => mark (mark (mark s2 0 ci) 1 ci) 2 ci) s) := by
  intro cs
  induction cs with
  | nil => exact fun rest s _ hI => hI
  | cons ci cs ih =>
    intro rest s hall hI
    rw [List.foldl_cons]
    exact ih rest _ (fun c h => hall c (by simp [h]))
      (inv_after_three (by simpa using hI) (hall ci (by simp)))

theorem fbTwos_sound {counts : List Nat} : ∀ (l rest2 : List Nat) (s : PS) (g : Rng),
    Inv counts ((l.filter fun ci => decide (counts.getD ci 0 = 2)) ++ rest2) s →
    ∃ s2 g2, fbTwos counts l s g = (s2, g2) ∧ Inv counts rest2 s2 := by
  intro l
  induction l with
  | nil => exact fun rest2 s g hI => ⟨s, g, rfl, by simpa using hI⟩
  | cons ci l2 ih =>
    intro rest2 s g hI
    by_cases h2 : counts.getD ci 0 = 2
    · have hfe : ((ci :: l2).filter fun c => decide (counts.getD c 0 = 2)) =
          ci :: (l2.filter fun c => decide (counts.getD c 0 = 2)) := by
        rw [List.filter_cons, if_pos (by simpa using h2)]
      rw [hfe, List.cons_append] at hI
      have hstep := fbTwoStep_sound g hI h2
      obtain ⟨s2, g2, heq, hI3⟩ := ih rest2 _ (rowOrder s.used g).2 hstep
      refine ⟨s2, g2, ?_, hI3⟩
      simp only [fbTwos, if_pos h2]
      exact heq
    · have hfe : ((ci :: l2).filter fun c => decide (counts.getD c 0 = 2)) =
          l2.filter fun c => decide (counts.getD c 0 = 2) := by
        rw [List.filter_cons, if_neg (by simpa using h2)]
      rw [hfe] at hI
      obtain ⟨s2, g2, heq, hI3⟩ := ih rest2 s g hI
      refine ⟨s2, g2, ?_, hI3⟩
      simp only [fbTwos, if_neg h2]
      exact heq

theorem fbOnes_sound {counts : List Nat} : ∀ (l rest2 : List Nat) (s : PS) (g : Rng),
    Inv counts ((l.filter fun ci => decide (counts.getD ci 0 = 1)) ++ rest2) s →
    ∃ s2 g2, fbOnes counts l s g = (s2, g2) ∧ Inv counts rest2 s2 := by
  intro l
  induction l with
  | nil => exact fun rest2 s g hI => ⟨s, g, rfl, by simpa using hI⟩
  | cons ci l2 ih =>
    intro rest2 s g hI
    by_cases h1 : counts.getD ci 0 = 1
    · have hfe : ((ci :: l2).filter fun c => decide (counts.getD c 0 = 1)) =
          ci :: (l2.filter fun c => decide (counts.getD c 0 = 1)) := by
        rw [List.filter_cons, if_pos (by simpa using h1)]
      rw [hfe, List.cons_append] at hI
      have hstep := fbOneStep_sound g hI h1
      obtain ⟨s2, g2, heq, hI3⟩ := ih rest2 _ (rowOrder s.used g).2 hstep
      refine ⟨s2, g2, ?_, hI3⟩
      simp only [fbOnes, if_pos h1]
      exact heq
    · have hfe : ((ci :: l2).filter fun c => decide (counts.getD c 0 = 1)) =
          l2.filter fun c => decide (counts.getD c 0 = 1) := by
        rw [List.filter_cons, if_neg (by simpa using h1)]
      rw [hfe] at hI
      obtain ⟨s2, g2, heq, hI3⟩ := ih rest2 s g hI
      refine ⟨s2, g2, ?_, hI3⟩
      simp only [fbOnes, if_neg h1]
      exact heq

theorem fbTopUpRow_noop {r : Nat} {s : PS} (g : Rng) (fuel : Nat) (h : ¬ uval s r < 5) :
    fbTopUpRow r fuel s g = (s, g) := by
  cases fuel with
  | zero => rfl
  | succ fuel => simp only [fbTopUpRow, if_neg h]

theorem fbTopUps_noop {s : PS} (g : Rng) (h5 : ∀ r < 3, uval s r = 5) :
    fbTopUps [0, 1, 2] s g = (s, g) := by
  have h0 : ¬ uval s 0 < 5 := by rw [h5 0 (by omega)]; omega
  have h1 : ¬ uval s 1 < 5 := by rw [h5 1 (by omega)]; omega
  have h2 : ¬ uval s 2 < 5 := by rw [h5 2 (by omega)]; omega
  simp only [fbTopUps, fbTopUpRow_noop g 5 h0, fbTopUpRow_noop g 5 h1,
    fbTopUpRow_noop g 5 h2]

/-! ### The fallback placement always yields a valid ticket -/

theorem fallbackBody_sound {cols : List (List Nat)} (hpools : validPools cols)
    (counts : List Nat) (gg : Rng) (hlen : counts.length = 9)
    (hbnd : ∀ ci < 9, 1 ≤ counts.getD ci 0 ∧ counts.getD ci 0 ≤ 3)
    (hsum : counts.sum = 15) :
    ∃ t g2, fallbackBody cols (counts, gg) = (some t, g2) ∧ TShape t ∧
      (∀ r < 3, rowNZ t r = 5) ∧
      (∀ c < 9, colNZ t c = counts.getD c 0) ∧
      (∀ r < 3, ∀ c < 9, tcell t r c ≠ 0 →
        colLo c ≤ tcell t r c ∧ tcell t r c ≤ colHi c) ∧
      (∀ c < 9, ∀ r < 3, ∀ r2 < 3, r < r2 → tcell t r c ≠ 0 → tcell t r2 c ≠ 0 →
        tcell t r c < tcell t r2 c) ∧
      (∀ r < 3, ∀ c < 9, ∀ r2 < 3, ∀ c2 < 9, (r, c) ≠ (r2, c2) →
        tcell t r c ≠ 0 → tcell t r2 c2 ≠ 0 → tcell t r c ≠ tcell t r2 c2) ∧
      totalNZ t = 15 := by
  have hsum9 : ((List.range 9).map fun ci => counts.getD ci 0).sum = 15 := by
    have h := sum_eq_range counts
    rw [hlen] at h
    rw [h, hsum]
  have hperm := filter123_perm counts hbnd
  have hI0 : Inv counts
      (((List.range 9).filter fun ci => decide (counts.getD ci 0 = 3)) ++
        (((List.range 9).filter fun ci => decide (counts.getD ci 0 = 2)) ++
         ((List.range 9).filter fun ci => decide (counts.getD ci 0 = 1)))) initPS :=
    inv_init counts _ hperm hsum9
  have h3eq : fbThrees counts initPS =
      ((List.range 9).filter fun ci => decide (counts.getD ci 0 = 3)).foldl
        (fun s2 ci => mark (mark (mark s2 0 ci) 1 ci) 2 ci) initPS :=
    foldl_guard _ _ _ _
  have hI1 : Inv counts
      (((List.range 9).filter fun ci => decide (counts.getD ci 0 = 2)) ++
       ((List.range 9).filter fun ci => decide (counts.getD ci 0 = 1)))
      (fbThrees counts initPS) := by
    rw [h3eq]
    exact fbThrees_sound _ _ _
      (fun ci h => by simpa using (List.mem_filter.mp h).2) hI0
  obtain ⟨s2, g2, heq2, hI2⟩ :=
    fbTwos_sound (List.range 9) _ (fbThrees counts initPS) gg hI1
  have hI2b : Inv counts
      (((List.range 9).filter fun ci => decide (counts.getD ci 0 = 1)) ++ []) s2 := by
    rw [List.append_nil]
    exact hI2
  obtain ⟨s3, g3, heq1, hI3⟩ := fbOnes_sound (List.range 9) [] s2 g2 hI2b
  obtain ⟨hval, h5⟩ := inv_final_valid hI3
  have htop := fbTopUps_noop g3 h5
  obtain ⟨t2, hfill, hT, hrowNZ, hcolNZ, hrange2, hord2, hdist2, htot2⟩ :=
    @ticket_props (fun ci => colsum s3 ci) s3 cols hI3.shape hI3.uspec h5 hpools
      (fun c _ => rfl)
  refine ⟨t2, g3, ?_, hT, hrowNZ, ?_, hrange2, hord2, hdist2, htot2⟩
  · simp only [fallbackBody, heq2, heq1, htop, hfill]
  · intro c hc
    rw [hcolNZ c hc]
    exact hval.2 c hc

theorem fallback_generate_ticket_sound {cols : List (List Nat)}
    (hpools : validPools cols) (g : Rng) (fuel : Nat) {cg : List Nat × Rng}
    (hc : fallbackCountsGo fuel (List.replicate 9 1) 6 g = some cg) :
    ∃ t g2, fallback_generate_ticket cols g fuel = (some t, g2) ∧ TShape t ∧
      (∀ r < 3, rowNZ t r = 5) ∧
      (∀ c < 9, 1 ≤ colNZ t c ∧ colNZ t c ≤ 3) ∧
      (∀ r < 3, ∀ c < 9, tcell t r c ≠ 0 →
        colLo c ≤ tcell t r c ∧ tcell t r c ≤ colHi c) ∧
      (∀ c < 9, ∀ r < 3, ∀ r2 < 3, r < r2 → tcell t r c ≠ 0 → tcell t r2 c ≠ 0 →
        tcell t r c < tcell t r2 c) ∧
      (∀ r < 3, ∀ c < 9, ∀ r2 < 3, ∀ c2 < 9, (r, c) ≠ (r2, c2) →
        tcell t r c ≠ 0 → tcell t r2 c2 ≠ 0 → tcell t r c ≠ tcell t r2 c2) ∧
      totalNZ t = 15 := by
  obtain ⟨hlen9, hbnd, hsum⟩ := fallbackCountsGo_spec fuel (List.replicate 9 1) 6 g
    (by decide) (by decide) (by decide) cg hc
  obtain ⟨t, g2, heq, hT, hrow, hcol, hrange2, hord2, hdist2, htot2⟩ :=
    fallbackBody_sound hpools cg.1 cg.2 hlen9 hbnd hsum
  refine ⟨t, g2, ?_, hT, hrow, ?_, hrange2, hord2, hdist2, htot2⟩
  · unfold fallback_generate_ticket
    rw [hc]
    exact heq
  · intro c hc9
    rw [hcol c hc9]
    exact hbnd c hc9

theorem fallback_props {cols : List (List Nat)} (hpools : validPools cols)
    {g : Rng} {fuel : Nat} {t : Ticket} {g2 : Rng}
    (h : fallback_generate_ticket cols g fuel = (some t, g2)) :
    TShape t ∧ (∀ r < 3, rowNZ t r = 5) ∧
      (∀ c < 9, 1 ≤ colNZ t c ∧ colNZ t c ≤ 3) ∧
      (∀ r < 3, ∀ c < 9, tcell t r c ≠ 0 →
        colLo c ≤ tcell t r c ∧ tcell t r c ≤ colHi c) ∧
      (∀ c < 9, ∀ r < 3, ∀ r2 < 3, r < r2 → tcell t r c ≠ 0 → tcell t r2 c ≠ 0 →
        tcell t r c < tcell t r2 c) ∧
      (∀ r < 3, ∀ c < 9, ∀ r2 < 3, ∀ c2 < 9, (r, c) ≠ (r2, c2) →
        tcell t r c ≠ 0 → tcell t r2 c2 ≠ 0 → tcell t r c ≠ tcell t r2 c2) ∧
      totalNZ t = 15 := by
  cases hc : fallbackCountsGo fuel (List.replicate 9 1) 6 g with
  | none =>
    have hnone : fallback_generate_ticket cols g fuel = (none, g) := by
      unfold fallback_generate_ticket
      rw [hc]
    rw [hnone] at h
    injection h with h1 h2
    exact Option.noConfusion h1
  | some cg =>
    obtain ⟨t2, g22, heq, props⟩ := fallback_generate_ticket_sound hpools g fuel hc
    rw [heq] at h
    injection h with h1 h2
    injection h1 with h1
    rw [← h1]
    exact props

/-! ### Termination behaviour of the fallback count loop -/

theorem countsGo_stuck : ∀ (fuel : Nat) (counts : List Nat) (extras pos : Nat),
    extras ≠ 0 → 3 ≤ counts.getD 0 0 →
    fallbackCountsGo fuel counts extras ⟨fun _ => 0, pos⟩ = none := by
  intro fuel
  induction fuel with
  | zero => intro counts extras pos _ _; rfl
  | succ fuel ih =>
    intro counts extras pos hex h3
    show (if extras = 0 then some (counts, (⟨fun _ => 0, pos⟩ : Rng))
      else if counts.getD 0 0 < 3 then
        fallbackCountsGo fuel (counts.set 0 (counts.getD 0 0 + 1)) (extras - 1)
          ⟨fun _ => 0, pos + 1⟩
      else fallbackCountsGo fuel counts extras ⟨fun _ => 0, pos + 1⟩) = none
    rw [if_neg hex, if_neg (by omega)]
    exact ih counts extras (pos + 1) hex h3

theorem countsGo_const0 :
    ∀ fuel, fallbackCountsGo fuel (List.replicate 9 1) 6 ⟨fun _ => 0, 0⟩ = none := by
  intro fuel
  match fuel with
  | 0 => rfl
  | 1 => rfl
  | n + 2 =>
    have h1 : fallbackCountsGo (n + 2) (List.replicate 9 1) 6 ⟨fun _ => 0, 0⟩ =
        fallbackCountsGo n [3, 1, 1, 1, 1, 1, 1, 1, 1] 4 ⟨fun _ => 0, 2⟩ := rfl
    rw [h1]
    exact countsGo_stuck n _ 4 2 (by omega) (by decide)

/-- Each round of the fallback top-up marks one more cell of row `r`,
so any fuel of at least 5 behaves exactly like fuel 5: the loop always
stops on its own. -/
theorem fbTopUpRow_fuel {r : Nat} (hr : r < 3) :
    ∀ (n m : Nat) (s : PS) (g : Rng), Shape s → 5 ≤ uval s r + n → 5 ≤ uval s r + m →
    fbTopUpRow r n s g = fbTopUpRow r m s g := by
  intro n
  induction n with
  | zero =>
    intro m s g hs hn hm
    have h5 : ¬ uval s r < 5 := by omega
    rw [fbTopUpRow_noop g m h5]
    rfl
  | succ n ih =>
    intro m s g hs hn hm
    cases m with
    | zero =>
      have h5 : ¬ uval s r < 5 := by omega
      rw [fbTopUpRow_noop g (n + 1) h5]
      rfl
    | succ m =>
      by_cases h5 : uval s r < 5
      · rw [fbTopUpRow, fbTopUpRow, if_pos h5, if_pos h5]
        by_cases hcand : topUpCands r s = []
        · rw [if_pos hcand, if_pos hcand]
        · rw [if_neg hcand, if_neg hcand]
          have hclen : 0 < (topUpCands r s).length :=
            List.length_pos.mpr hcand
          have hk : (g.next (topUpCands r s).length).1 < (topUpCands r s).length :=
            Nat.mod_lt _ hclen
          have hcmem : (topUpCands r s).getD (g.next (topUpCands r s).length).1 0 ∈
              topUpCands r s := getD_mem hk
          have hc9 : (topUpCands r s).getD (g.next (topUpCands r s).length).1 0 < 9 :=
            List.mem_range.mp (List.mem_filter.mp hcmem).1
          exact ih m _ _ (shape_mark hs hr hc9)
            (by rw [uval_mark_self hs hr]; omega)
            (by rw [uval_mark_self hs hr]; omega)
      · rw [fbTopUpRow_noop g (n + 1) h5, fbTopUpRow_noop g (m + 1) h5]

/-! ### Bundled ticket facts at the API level -/

theorem api_tickets_strong (count : Int) (g : Rng) (fuel : Nat) :
    ∃ ts g2, api_tickets count g fuel = (some ts, g2) ∧
      ts.length = (max 1 (min count 60)).toNat * 6 ∧
      ∀ t ∈ ts, TShape t ∧ (∀ r < 3, rowNZ t r = 5) ∧
        (∀ c < 9, 1 ≤ colNZ t c ∧ colNZ t c ≤ 3) ∧
        (∀ r < 3, ∀ c < 9, tcell t r c ≠ 0 →
          colLo c ≤ tcell t r c ∧ tcell t r c ≤ colHi c) ∧
        (∀ c < 9, ∀ r < 3, ∀ r2 < 3, r < r2 → tcell t r c ≠ 0 → tcell t r2 c ≠ 0 →
          tcell t r c < tcell t r2 c) ∧
        (∀ r < 3, ∀ c < 9, ∀ r2 < 3, ∀ c2 < 9, (r, c) ≠ (r2, c2) →
          tcell t r c ≠ 0 → tcell t r2 c2 ≠ 0 → tcell t r c ≠ tcell t r2 c2) ∧
        totalNZ t = 15 :=
  api_tickets_sound _ (fun g1 fuel1 => by
    obtain ⟨t, g2, heq, hT, h1, h2, h3, h4, h5, h6, _⟩ :=
      generate_ticket_strict_sound g1 fuel1
    exact ⟨t, g2, heq, hT, h1, h2, h3, h4, h5, h6⟩) count g fuel

/-- A concrete ticket produced by the fallback generator on the pools
`colRanges` and the identity stream, used to instantiate the fallback
clauses of the claims at a checkable input. -/
def fbDemo : Ticket :=
  [[8, 18, 0, 38, 48, 0, 69, 0, 0],
   [0, 19, 28, 39, 0, 58, 0, 79, 0],
   [9, 0, 29, 0, 49, 59, 0, 0, 90]]

theorem fbDemo_eq : fallback_generate_ticket colRanges ⟨fun n => n, 0⟩ 7 =
    (some fbDemo, ⟨fun n => n, 33⟩) := rfl

/-! ### The claims -/

/-- C1: every ticket returned by the API (strict path) has exactly 5
non-zero cells in each of its 3 rows, and so does every ticket produced
by the fallback generator from well-formed pools. -/
theorem claim_C1_row_sums :
    (∀ (count : Int) (g : Rng) (fuel : Nat), ∃ ts g2,
      api_tickets count g fuel = (some ts, g2) ∧
      ∀ t ∈ ts, ∀ r < 3, rowNZ t r = 5) ∧
    (∀ cols : List (List Nat), validPools cols → ∀ (g : Rng) (fuel : Nat)
      (t : Ticket) (g2 : Rng), fallback_generate_ticket cols g fuel = (some t, g2) →
      ∀ r < 3, rowNZ t r = 5) := by
  constructor
  · intro count g fuel
    obtain ⟨ts, g2, heq, _, hall⟩ := api_tickets_strong count g fuel
    exact ⟨ts, g2, heq, fun t ht => (hall t ht).2.1⟩
  · intro cols hpools g fuel t g2 h
    exact (fallback_props hpools h).2.1

theorem claim_C1_witness : validPools colRanges ∧ (∀ r < 3, rowNZ fbDemo r = 5) :=
  ⟨by decide, claim_C1_row_sums.2 colRanges (by decide) ⟨fun n => n, 0⟩ 7 fbDemo
    ⟨fun n => n, 33⟩ fbDemo_eq⟩

/-- C2: in every generated ticket (strict path via the API, and fallback
path from well-formed pools), every non-zero value of column `c` lies in
that column's fixed range `[colLo c, colHi c]`: `[1, 9]` for column 0,
`[10c, 10c + 9]` for columns 1–7, `[80, 90]` for column 8. -/
theorem claim_C2_column_ranges :
    (∀ (count : Int) (g : Rng) (fuel : Nat), ∃ ts g2,
      api_tickets count g fuel = (some ts, g2) ∧
      ∀ t ∈ ts, ∀ r < 3, ∀ c < 9, tcell t r c ≠ 0 →
        colLo c ≤ tcell t r c ∧ tcell t r c ≤ colHi c) ∧
    (∀ cols : List (List Nat), validPools cols → ∀ (g : Rng) (fuel : Nat)
      (t : Ticket) (g2 : Rng), fallback_generate_ticket cols g fuel = (some t, g2) →
      ∀ r < 3, ∀ c < 9, tcell t r c ≠ 0 →
        colLo c ≤ tcell t r c ∧ tcell t r c ≤ colHi c) := by
  constructor
  · intro count g fuel
    obtain ⟨ts, g2, heq, _, hall⟩ := api_tickets_strong count g fuel
    exact ⟨ts, g2, heq, fun t ht => (hall t ht).2.2.2.1⟩
  · intro cols hpools g fuel t g2 h
    exact (fallback_props hpools h).2.2.2.1

theorem claim_C2_witness : validPools colRanges ∧
    (∀ r < 3, ∀ c < 9, tcell fbDemo r c ≠ 0 →
      colLo c ≤ tcell fbDemo r c ∧ tcell fbDemo r c ≤ colHi c) :=
  ⟨by decide, claim_C2_column_ranges.2 colRanges (by decide) ⟨fun n => n, 0⟩ 7 fbDemo
    ⟨fun n => n, 33⟩ fbDemo_eq⟩

/-- C3: in every generated ticket (strict path via the API, and fallback
path from well-formed pools), every column holds between 1 and 3
non-zero cells and the whole grid holds exactly 15. -/
theorem claim_C3_column_counts :
    (∀ (count : Int) (g : Rng) (fuel : Nat), ∃ ts g2,
      api_tickets count g fuel = (some ts, g2) ∧
      ∀ t ∈ ts, (∀ c < 9, 1 ≤ colNZ t c ∧ colNZ t c ≤ 3) ∧ totalNZ t = 15) ∧
    (∀ cols : List (List Nat), validPools cols → ∀ (g : Rng) (fuel : Nat)
      (t : Ticket) (g2 : Rng), fallback_generate_ticket cols g fuel = (some t, g2) →
      (∀ c < 9, 1 ≤ colNZ t c ∧ colNZ t c ≤ 3) ∧ totalNZ t = 15) := by
  constructor
  · intro count g fuel
    obtain ⟨ts, g2, heq, _, hall⟩ := api_tickets_strong count g fuel
    exact ⟨ts, g2, heq, fun t ht => ⟨(hall t ht).2.2.1, (hall t ht).2.2.2.2.2.2⟩⟩
  · intro cols hpools g fuel t g2 h
    exact ⟨(fallback_props hpools h).2.2.1, (fallback_props hpools h).2.2.2.2.2.2⟩

theorem claim_C3_witness : validPools colRanges ∧
    (∀ c < 9, 1 ≤ colNZ fbDemo c ∧ colNZ fbDemo c ≤ 3) ∧ totalNZ fbDemo = 15 :=
  ⟨by decide, claim_C3_column_counts.2 colRanges (by decide) ⟨fun n => n, 0⟩ 7 fbDemo
    ⟨fun n => n, 33⟩ fbDemo_eq⟩

/-- C4: in every generated ticket (strict path via the API, and fallback
path from well-formed pools), the non-zero values of each column
strictly increase from row 0 to row 2. -/
theorem claim_C4_column_ascending :
    (∀ (count : Int) (g : Rng) (fuel : Nat), ∃ ts g2,
      api_tickets count g fuel = (some ts, g2) ∧
      ∀ t ∈ ts, ∀ c < 9, ∀ r < 3, ∀ r2 < 3, r < r2 → tcell t r c ≠ 0 →
        tcell t r2 c ≠ 0 → tcell t r c < tcell t r2 c) ∧
    (∀ cols : List (List Nat), validPools cols → ∀ (g : Rng) (fuel : Nat)
      (t : Ticket) (g2 : Rng), fallback_generate_ticket cols g fuel = (some t, g2) →
      ∀ c < 9, ∀ r < 3, ∀ r2 < 3, r < r2 → tcell t r c ≠ 0 →
        tcell t r2 c ≠ 0 → tcell t r c < tcell t r2 c) := by
  constructor
  · intro count g fuel
    obtain ⟨ts, g2, heq, _, hall⟩ := api_tickets_strong count g fuel
    exact ⟨ts, g2, heq, fun t ht => (hall t ht).2.2.2.2.1⟩
  · intro cols hpools g fuel t g2 h
    exact (fallback_props hpools h).2.2.2.2.1

theorem claim_C4_witness : validPools colRanges ∧
    (∀ c < 9, ∀ r < 3, ∀ r2 < 3, r < r2 → tcell fbDemo r c ≠ 0 →
      tcell fbDemo r2 c ≠ 0 → tcell fbDemo r c < tcell fbDemo r2 c) :=
  ⟨by decide, claim_C4_column_ascending.2 colRanges (by decide) ⟨fun n => n, 0⟩ 7 fbDemo
    ⟨fun n => n, 33⟩ fbDemo_eq⟩

/-- C5: in every generated ticket (strict path via the API, and fallback
path from well-formed pools), the non-zero values of the 3×9 grid are
pairwise distinct. -/
theorem claim_C5_distinct_values :
    (∀ (count : Int) (g : Rng) (fuel : Nat), ∃ ts g2,
      api_tickets count g fuel = (some ts, g2) ∧
      ∀ t ∈ ts, ∀ r < 3, ∀ c < 9, ∀ r2 < 3, ∀ c2 < 9, (r, c) ≠ (r2, c2) →
        tcell t r c ≠ 0 → tcell t r2 c2 ≠ 0 → tcell t r c ≠ tcell t r2 c2) ∧
    (∀ cols : List (List Nat), validPools cols → ∀ (g : Rng) (fuel : Nat)
      (t : Ticket) (g2 : Rng), fallback_generate_ticket cols g fuel = (some t, g2) →
      ∀ r < 3, ∀ c < 9, ∀ r2 < 3, ∀ c2 < 9, (r, c) ≠ (r2, c2) →
        tcell t r c ≠ 0 → tcell t r2 c2 ≠ 0 → tcell t r c ≠ tcell t r2 c2) := by
  constructor
  · intro count g fuel
    obtain ⟨ts, g2, heq, _, hall⟩ := api_tickets_strong count g fuel
    exact ⟨ts, g2, heq, fun t ht => (hall t ht).2.2.2.2.2.1⟩
  · intro cols hpools g fuel t g2 h
    exact (fallback_props hpools h).2.2.2.2.2.1

theorem claim_C5_witness : validPools colRanges ∧
    (∀ r < 3, ∀ c < 9, ∀ r2 < 3, ∀ c2 < 9, (r, c) ≠ (r2, c2) →
      tcell fbDemo r c ≠ 0 → tcell fbDemo r2 c2 ≠ 0 →
      tcell fbDemo r c ≠ tcell fbDemo r2 c2) :=
  ⟨by decide, claim_C5_distinct_values.2 colRanges (by decide) ⟨fun n => n, 0⟩ 7 fbDemo
    ⟨fun n => n, 33⟩ fbDemo_eq⟩

/-- C6: the API clamps the requested strip count into `[1, 60]` instead
of rejecting it — the result always holds between 6 and 360 tickets and
no error is returned — and for a request already in `[1, 60]` it holds
exactly `count * 6` tickets. -/
theorem claim_C6_strip_cardinality :
    (∀ (count : Int) (g : Rng) (fuel : Nat), ∃ ts g2,
      api_tickets count g fuel = (some ts, g2) ∧ 6 ≤ ts.length ∧ ts.length ≤ 360) ∧
    (∀ (count : Int) (g : Rng) (fuel : Nat), 1 ≤ count → count ≤ 60 →
      ∃ ts g2, api_tickets count g fuel = (some ts, g2) ∧
        (ts.length : Int) = count * 6) := by
  constructor
  · intro count g fuel
    obtain ⟨ts, g2, heq, hlen, _⟩ := api_tickets_strong count g fuel
    refine ⟨ts, g2, heq, ?_, ?_⟩ <;> rw [hlen] <;> omega
  · intro count g fuel h1 h60
    obtain ⟨ts, g2, heq, hlen, _⟩ := api_tickets_strong count g fuel
    refine ⟨ts, g2, heq, ?_⟩
    rw [hlen]
    omega

theorem claim_C6_witness : (1 : Int) ≤ 2 ∧ (2 : Int) ≤ 60 ∧
    ∃ ts g2, api_tickets 2 ⟨fun n => n, 0⟩ 0 = (some ts, g2) ∧
      (ts.length : Int) = 2 * 6 :=
  ⟨by decide, by decide,
   claim_C6_strip_cardinality.2 2 ⟨fun n => n, 0⟩ 0 (by decide) (by decide)⟩

/-- C7: generation always succeeds: the API never returns an error for
any request; exhaustion of the 40 layout attempts dispatches to the
fallback generator rather than raising; and the fallback itself returns
a ticket from well-formed pools whenever its count-distribution loop
finishes. -/
theorem claim_C7_always_succeeds :
    (∀ (count : Int) (g : Rng) (fuel : Nat), ∃ ts g2,
      api_tickets count g fuel = (some ts, g2)) ∧
    (∀ (counts : List Nat) (cols : List (List Nat)) (fuel : Nat) (g3 : Rng),
      afterAttempt counts cols fuel (none, g3) = fallback_generate_ticket cols g3 fuel) ∧
    (∀ cols : List (List Nat), validPools cols → ∀ (g : Rng) (fuel : Nat)
      (cg : List Nat × Rng), fallbackCountsGo fuel (List.replicate 9 1) 6 g = some cg →
      ∃ t g2, fallback_generate_ticket cols g fuel = (some t, g2)) := by
  refine ⟨?_, fun counts cols fuel g3 => rfl, ?_⟩
  · intro count g fuel
    obtain ⟨ts, g2, heq, _⟩ := api_tickets_strong count g fuel
    exact ⟨ts, g2, heq⟩
  · intro cols hpools g fuel cg hc
    obtain ⟨t, g2, heq, _⟩ := fallback_generate_ticket_sound hpools g fuel hc
    exact ⟨t, g2, heq⟩

theorem claim_C7_witness : validPools colRanges ∧
    ∃ t g2, fallback_generate_ticket colRanges ⟨fun n => n, 0⟩ 7 = (some t, g2) :=
  ⟨by decide, claim_C7_always_succeeds.2.2 colRanges (by decide) ⟨fun n => n, 0⟩ 7
    ([2, 2, 2, 2, 2, 2, 1, 1, 1], ⟨fun n => n, 6⟩) rfl⟩

/-- C8 (amended): the fallback's row top-up loops always stop on their
own — any fuel of at least 5 behaves exactly like fuel 5 — and the
count-distribution loop `while extras > 0` terminates for some random
streams (the identity stream finishes within 7 rounds), but not for
every sequence of random choices: a stream may pick an already-full
column forever. -/
theorem claim_C8_fallback_termination :
    (∀ r < 3, ∀ (s : PS) (g : Rng) (fuel : Nat), Shape s → 5 ≤ fuel →
      fbTopUpRow r fuel s g = fbTopUpRow r 5 s g) ∧
    ((fallbackCountsGo 7 (List.replicate 9 1) 6 ⟨fun n => n, 0⟩).isSome = true) ∧
    ¬ (∀ g : Rng, ∃ fuel,
        (fallbackCountsGo fuel (List.replicate 9 1) 6 g).isSome = true) := by
  refine ⟨?_, rfl, ?_⟩
  · intro r hr s g fuel hs hfuel
    exact fbTopUpRow_fuel hr fuel 5 s g hs (by omega) (by omega)
  · intro hall
    obtain ⟨fuel, hf⟩ := hall ⟨fun _ => 0, 0⟩
    rw [countsGo_const0 fuel] at hf
    exact Bool.noConfusion hf

/-- C8 counterexample: on the stream that always picks column 0 the
count-distribution loop never finishes — no amount of fuel makes it
return — refuting termination "for every sequence of random choices". -/
theorem claim_C8_counterexample :
    ¬ ∃ fuel, (fallbackCountsGo fuel (List.replicate 9 1) 6
      ⟨fun _ => 0, 0⟩).isSome = true := by
  rintro ⟨fuel, hf⟩
  rw [countsGo_const0 fuel] at hf
  exact Bool.noConfusion hf

theorem claim_C8_witness : Shape initPS ∧
    fbTopUpRow 0 9 initPS ⟨fun n => n, 0⟩ = fbTopUpRow 0 5 initPS ⟨fun n => n, 0⟩ :=
  ⟨shape_init, claim_C8_fallback_termination.1 0 (by omega) initPS ⟨fun n => n, 0⟩ 9
    shape_init (by omega)⟩

/-- C9: pool exhaustion is unreachable: a pop never hits an empty pool
(popping `k` values needs only `k ≤ length`, and each column draws at
most 3 from a pool of at least 9), so the strict generator always fills
its grid, and so does the fallback whenever its count loop finishes. -/
theorem claim_C9_pool_exhaustion :
    (∀ (k : Nat) (l : List Nat), k ≤ l.length → (popK k l).isSome = true) ∧
    (∀ (g : Rng) (fuel : Nat), (generate_ticket_strict g fuel).1.isSome = true) ∧
    (∀ cols : List (List Nat), validPools cols → ∀ (g : Rng) (fuel : Nat)
      (cg : List Nat × Rng), fallbackCountsGo fuel (List.replicate 9 1) 6 g = some cg →
      (fallback_generate_ticket cols g fuel).1.isSome = true) := by
  refine ⟨?_, ?_, ?_⟩
  · intro k l hk
    obtain ⟨vs, l2, heq, _⟩ := popK_spec k l hk
    rw [heq]
    rfl
  · intro g fuel
    obtain ⟨t, g2, heq, _⟩ := generate_ticket_strict_sound g fuel
    rw [heq]
    rfl
  · intro cols hpools g fuel cg hc
    obtain ⟨t, g2, heq, _⟩ := fallback_generate_ticket_sound hpools g fuel hc
    rw [heq]
    rfl

theorem claim_C9_witness : (3 : Nat) ≤ [4, 5, 6, 7].length ∧
    (popK 3 [4, 5, 6, 7]).isSome = true ∧ validPools colRanges ∧
    (fallback_generate_ticket colRanges ⟨fun n => n, 0⟩ 7).1.isSome = true :=
  ⟨by decide, claim_C9_pool_exhaustion.1 3 [4, 5, 6, 7] (by decide), by decide,
   claim_C9_pool_exhaustion.2.2 colRanges (by decide) ⟨fun n => n, 0⟩ 7
     ([2, 2, 2, 2, 2, 2, 1, 1, 1], ⟨fun n => n, 6⟩) rfl⟩

/-- C10: the strict generator's ticket is balanced by thirds: each
3-column block holds exactly 5 non-zero cells, one block's column
counts are a permutation of `(2, 2, 1)` and the other two blocks' of
`(3, 1, 1)`. -/
theorem claim_C10_block_balance : ∀ (g : Rng) (fuel : Nat),
    ∃ t g2, generate_ticket_strict g fuel = (some t, g2) ∧
      (∀ b < 3, (blockNZ t b).sum = 5) ∧
      ∃ db < 3, ∀ b < 3, (blockNZ t b).insertionSort (fun x y => x ≤ y) =
        if b = db then [1, 2, 2] else [1, 1, 3] := by
  intro g fuel
  obtain ⟨t, g2, heq, hT, h1, h2, h3, h4, h5, h6, db, hdb, hpat⟩ :=
    generate_ticket_strict_sound g fuel
  refine ⟨t, g2, heq, ?_, db, hdb, hpat⟩
  intro b hb
  have hps := (List.perm_insertionSort (fun x y => x ≤ y) (blockNZ t b)).sum_eq
  rw [← hps, hpat b hb]
  by_cases h : b = db
  · rw [if_pos h]
    rfl
  · rw [if_neg h]
    rfl

end Housie
